import Mathlib

/-! BadgerAdmin: a verification development for `main.go`.

`main.go` is an HTTP front-end over an embedded ordered key-value store.  Every
route is wrapped in HTTP Basic authentication (`withAuth`) and forwards to one
storage call (`db.View`, `db.Update`, `db.Backup`, `db.Load`).

Go strings and byte slices are modelled as lists of byte values (`Bytes`).  The
handlers are state-passing functions over a `ResponseWriter` and the process
state holding the store.
-/

namespace BadgerAdmin

/-! ## Strings -/

/-- A Go `string` / `[]byte`: a sequence of byte values. -/
abbrev Bytes := List Nat

/-- The bytes of an ASCII literal. -/
def ascii (s : String) : Bytes := s.data.map Char.toNat

/-- Go `strings.HasPrefix(s, p)`. -/
def hasPrefix (s p : Bytes) : Bool := p.isPrefixOf s

/-- Go `strings.TrimPrefix(s, p)`: `s[len(p):]` when `s` starts with `p`, else `s`. -/
def trimPrefix (s p : Bytes) : Bytes := if hasPrefix s p then s.drop p.length else s

/-- Splitting around the first occurrence of the one-byte separator `sep`
(`strings.Index` followed by the two slices `s[:m]`, `s[m+1:]`). -/
def cut (sep : Nat) : Bytes → Option (Bytes × Bytes)
  | [] => none
  | c :: rest =>
    if c = sep then some ([], rest)
    else match cut sep rest with
      | none => none
      | some (a, b) => some (c :: a, b)

/-- Go `strings.SplitN(s, sep, 2)` for a one-byte separator: at most two
substrings, the second being the unsplit remainder. -/
def splitN2 (s : Bytes) (sep : Nat) : List Bytes :=
  match cut sep s with
  | some (a, b) => [a, b]
  | none => [s]

/-! ## `encoding/base64`, `StdEncoding` -/

/-- The standard base64 alphabet (`encodeStd`). -/
def encodeStd : Bytes :=
  ascii "ABCDEFGHIJKLMNOPQRSTUVWXYZabcdefghijklmnopqrstuvwxyz0123456789+/"

/-- The alphabet character of a six-bit value. -/
def encodeChar (i : Nat) : Nat := encodeStd.getD i 0

/-- The decode table of the encoding: the six-bit value of an alphabet
character, `0xff` for every other byte. -/
def decodeMap (c : Nat) : Nat :=
  if encodeStd.indexOf c < 64 then encodeStd.indexOf c else 255

/-- Go `StdEncoding.EncodeToString`: three bytes become four characters, a
final group of one or two bytes is padded with `=`. -/
def encodeToString : Bytes → Bytes
  | b0 :: b1 :: b2 :: rest =>
    let val := b0 * 2 ^ 16 + b1 * 2 ^ 8 + b2
    encodeChar (val / 2 ^ 18 % 64) :: encodeChar (val / 2 ^ 12 % 64) ::
      encodeChar (val / 2 ^ 6 % 64) :: encodeChar (val % 64) :: encodeToString rest
  | [b0, b1] =>
    let val := b0 * 2 ^ 16 + b1 * 2 ^ 8
    [encodeChar (val / 2 ^ 18 % 64), encodeChar (val / 2 ^ 12 % 64),
      encodeChar (val / 2 ^ 6 % 64), 61]
  | [b0] =>
    let val := b0 * 2 ^ 16
    [encodeChar (val / 2 ^ 18 % 64), encodeChar (val / 2 ^ 12 % 64), 61, 61]
  | [] => []

/-- Skipping `\r` and `\n`, as the decoder does around padding. -/
def skipNewlines : Bytes → Bytes
  | [] => []
  | c :: rest => if c = 10 ∨ c = 13 then skipNewlines rest else c :: rest

/-- The bytes of one quantum: `dlen` six-bit values in `dbuf` (missing ones
zero) give `dlen - 1` bytes. -/
def assemble (dbuf : List Nat) (dlen : Nat) : Bytes :=
  let val := dbuf.getD 0 0 * 2 ^ 18 + dbuf.getD 1 0 * 2 ^ 12 + dbuf.getD 2 0 * 2 ^ 6 + dbuf.getD 3 0
  [val / 2 ^ 16 % 256, val / 2 ^ 8 % 256, val % 256].take (dlen - 1)

/-- Go `Encoding.Decode` for `StdEncoding` (padded, not strict): `dbuf` holds
the six-bit values of the quantum being read.  The result is the bytes decoded
before the input ended or was found corrupt, and whether it was corrupt. -/
def decodeFrom : Bytes → List Nat → Bytes × Bool
  | [], dbuf => ([], decide (dbuf.length ≠ 0))
  | c :: rest, dbuf =>
    if decodeMap c ≠ 255 then
      if dbuf.length = 3 then
        (assemble (dbuf ++ [decodeMap c]) 4 ++ (decodeFrom rest []).1, (decodeFrom rest []).2)
      else decodeFrom rest (dbuf ++ [decodeMap c])
    else if c = 10 ∨ c = 13 then decodeFrom rest dbuf
    else if c ≠ 61 then ([], true)
    else match dbuf.length with
      | 0 => ([], true)
      | 1 => ([], true)
      | 2 =>
        match skipNewlines rest with
        | [] => ([], true)
        | p :: rest2 =>
          if p ≠ 61 then ([], true)
          else (assemble dbuf 2, decide (skipNewlines rest2 ≠ []))
      | _ => (assemble dbuf 3, decide (skipNewlines rest ≠ []))

/-- Go `StdEncoding.DecodeString`: the decoded prefix `dbuf[:n]` and the error
flag. -/
def decodeString (s : Bytes) : Bytes × Bool := decodeFrom s []

/-! ## `net/http` -/

/-- The part of `*http.Request` the handlers read. -/
structure Request where
  /-- The request header, canonical name to first value. -/
  header : List (String × Bytes)
  /-- The parsed query string `r.URL.Query()`. -/
  query : List (String × Bytes)
  /-- The request body. -/
  body : Bytes
  /-- The result of `r.FormFile("backup")` after `r.ParseMultipartForm`:
  the uploaded file, `none` when the call returns an error. -/
  formFile : Option Bytes

/-- Go `Header.Get` / `url.Values.Get`: the first value of the name, the empty
string when the name is absent. -/
def valuesGet : List (String × Bytes) → String → Bytes
  | [], _ => []
  | (k, v) :: rest, name => if k = name then v else valuesGet rest name

/-- Go `Header.Set`: the name now has exactly this value. -/
def headerSet (h : List (String × Bytes)) (name : String) (v : Bytes) : List (String × Bytes) :=
  (name, v) :: h.filter (fun kv => kv.1 ≠ name)

/-- The state of an `http.ResponseWriter`: the header map the handler edits, the
status line and header snapshot once sent, and the body written so far. -/
structure ResponseWriter where
  header : List (String × Bytes)
  sent : Option (Nat × List (String × Bytes))
  body : Bytes
deriving DecidableEq, Repr

/-- A fresh writer, as the server hands to the handler. -/
def ResponseWriter.fresh : ResponseWriter := { header := [], sent := none, body := [] }

/-- Go `w.Header().Set`. -/
def ResponseWriter.setHeader (w : ResponseWriter) (name : String) (v : Bytes) : ResponseWriter :=
  { w with header := headerSet w.header name v }

/-- Go `w.WriteHeader(code)`: sends the status line with the current header
map; a second call has no effect. -/
def ResponseWriter.writeHeader (w : ResponseWriter) (code : Nat) : ResponseWriter :=
  match w.sent with
  | some _ => w
  | none => { w with sent := some (code, w.header) }

/-- Go `w.Write(b)`: sends status 200 first when no status was sent yet. -/
def ResponseWriter.write (w : ResponseWriter) (b : Bytes) : ResponseWriter :=
  let w1 := w.writeHeader 200
  { w1 with body := w1.body ++ b }

/-- Go `http.Error(w, msg, code)`: plain-text content type, the status, and the
message followed by a newline. -/
def httpError (w : ResponseWriter) (msg : Bytes) (code : Nat) : ResponseWriter :=
  (((w.setHeader "Content-Type" (ascii "text/plain; charset=utf-8")).setHeader
    "X-Content-Type-Options" (ascii "nosniff")).writeHeader code).write (msg ++ [10])

/-- What the client receives: the status, the header fields the handler set (the
fields the server adds by itself, such as `Date` or a sniffed `Content-Type`, are
left out) and the body. -/
structure Response where
  status : Nat
  header : List (String × Bytes)
  body : Bytes
deriving DecidableEq, Repr

/-- The response once the handler has returned: status 200 with the header map
when the handler never wrote. -/
def ResponseWriter.finish (w : ResponseWriter) : Response :=
  match w.sent with
  | some (code, h) => { status := code, header := h, body := w.body }
  | none => { status := 200, header := w.header, body := w.body }

/-- Go `http.HandlerFunc`, over a process state `σ` (the global `db`). -/
abbrev HandlerFunc (σ : Type) := ResponseWriter → Request → σ → ResponseWriter × σ

/-! ## `main.go`: configuration and authentication -/

/-- Go `getEnv`: the environment value when set and non-empty, else the fallback. -/
def getEnv (environ : Bytes → Bytes) (key fallback : Bytes) : Bytes :=
  if environ key ≠ [] then environ key else fallback

/-- The package-level `username` and `password`. -/
structure Config where
  username : Bytes
  password : Bytes

/-- The initialisers of `username` and `password`. -/
def loadConfig (environ : Bytes → Bytes) : Config :=
  { username := getEnv environ (ascii "BADGER_ADMIN_USER") (ascii "admin")
    password := getEnv environ (ascii "BADGER_ADMIN_PASS") (ascii "botfluence") }

/-- Go `headerAuth`. -/
def headerAuth (w : ResponseWriter) : ResponseWriter :=
  httpError (w.setHeader "WWW-Authenticate" (ascii "Basic realm=Restricted"))
    (ascii "Unauthorized") 401

/-- Go `withAuth`. -/
def withAuth {σ : Type} (cfg : Config) (handler : HandlerFunc σ) : HandlerFunc σ :=
  fun w r st =>
    let auth := valuesGet r.header "Authorization"
    if !hasPrefix auth (ascii "Basic ") then
      (headerAuth w, st)
    else
      let decoded := (decodeString (trimPrefix auth (ascii "Basic "))).1
      let parts := splitN2 decoded 58
      if parts.length ≠ 2 ∨ parts.getD 0 [] ≠ cfg.username ∨ parts.getD 1 [] ≠ cfg.password then
        (headerAuth w, st)
      else
        handler w r st

/-! ## The storage engine

The engine is the embedded store that `main.go` drives through `db.View`,
`db.Update`, `db.Backup` and `db.Load`; its code is not part of `main.go`. -/

/-- Go `bytes.Compare(a, b) < 0`: lexicographic order on byte strings. -/
def bytesLt : Bytes → Bytes → Bool
  | [], [] => false
  | [], _ :: _ => true
  | _ :: _, [] => false
  | a :: as, b :: bs => if a < b then true else if b < a then false else bytesLt as bs

/-- Modelled from the spec: the key order of the engine (section 4.1), missing
from the sources: insertion of a key into an ascending duplicate-free key list. -/
def insertKey (k : Bytes) : List Bytes → List Bytes
  | [] => [k]
  | x :: xs =>
    if bytesLt k x then k :: x :: xs
    else if k = x then x :: xs
    else x :: insertKey k xs

/-- Modelled from the spec: the key order of the engine (section 4.1), missing
from the sources: the distinct keys of a list in ascending lexicographic order. -/
def sortKeys (l : List Bytes) : List Bytes := l.foldr insertKey []

/-- Modelled from the spec: the data model of section 3, missing from the
sources because the engine is a library.  An entry is a (key, value, version,
tombstone) tuple. -/
structure Entry where
  key : Bytes
  value : Bytes
  version : Nat
  tombstone : Bool
deriving DecidableEq, Repr

/-- Modelled from the spec: the multi-version mapping of section 3, missing from
the sources.  The store keeps every committed entry (deletes insert tombstones)
and the highest committed version. -/
structure Store where
  entries : List Entry
  version : Nat
deriving DecidableEq, Repr

/-- Modelled from the spec: the store of the engine before any commit, missing
from the sources. -/
def Store.empty : Store := { entries := [], version := 0 }

/-- Modelled from the spec: the lookup of the engine (section 4.1), missing from
the sources.  One step of the search for the entry visible at snapshot `snap`: among the
entries of key `k` with version at most `snap`, the greatest version wins, the
later entry among equal versions. -/
def pickLatest (k : Bytes) (snap : Nat) (best : Option Entry) (e : Entry) : Option Entry :=
  if e.key = k ∧ e.version ≤ snap then
    match best with
    | none => some e
    | some b => if b.version ≤ e.version then some e else some b
  else best

/-- Modelled from the spec: the lookup of the engine (section 4.1), missing from
the sources: the entry of key `k` visible at snapshot `snap`. -/
def Store.latest (s : Store) (k : Bytes) (snap : Nat) : Option Entry :=
  s.entries.foldl (pickLatest k snap) none

/-- Modelled from the spec: `get(key, snapshot) -> value | NotFound` of section
4.1, missing from the sources: the value of the entry with the greatest version
at most the snapshot, `NotFound` (`none`) if there is none or it is a
tombstone. -/
def Store.get (s : Store) (k : Bytes) (snap : Nat) : Option Bytes :=
  match s.latest k snap with
  | some e => if e.tombstone then none else some e.value
  | none => none

/-- Modelled from the spec: `iterate(prefix, snapshot)` of section 4.1, missing
from the sources: the keys in lexicographic order restricted to the given leading
bytes, each resolved against the snapshot as in `get`. -/
def Store.iterate (s : Store) (pfx : Bytes) (snap : Nat) : List (Bytes × Bytes) :=
  (sortKeys (s.entries.map (fun e => e.key))).filterMap (fun k =>
    if hasPrefix k pfx then
      match s.get k snap with
      | some v => some (k, v)
      | none => none
    else none)

/-- Modelled from the spec: the write batch of section 3, missing from the
sources: a staged put or delete. -/
inductive WriteOp where
  | set (key value : Bytes)
  | delete (key : Bytes)
deriving DecidableEq, Repr

/-- Modelled from the spec: the write batch of section 3, missing from the
sources: the key an operation writes. -/
def WriteOp.key : WriteOp → Bytes
  | .set k _ => k
  | .delete k => k

/-- Modelled from the spec: the commit record of section 3, missing from the
sources: the entry an operation becomes at commit version `v`; a delete inserts a
tombstone. -/
def WriteOp.toEntry (v : Nat) : WriteOp → Entry
  | .set k val => { key := k, value := val, version := v, tombstone := false }
  | .delete k => { key := k, value := [], version := v, tombstone := true }

/-- Modelled from the spec: `commit(batch)` of section 4.1, missing from the
sources: the batch gets the next version number and becomes visible as a
whole. -/
def Store.commit (s : Store) (batch : List WriteOp) : Store :=
  { entries := s.entries ++ batch.map (WriteOp.toEntry (s.version + 1))
    version := s.version + 1 }

/-- Modelled from the spec: the error taxonomy of section 7, missing from the
sources, as far as it reaches the handlers, with the rejection of an operation
the engine does not admit. -/
inductive EngineError where
  | notFound
  | ioFailure
  | rejected
  | truncated
deriving DecidableEq, Repr

/-! ### The backup stream -/

/-- Modelled from the spec: the length and version fields of a backup record
(section 4.3), missing from the sources: an unsigned integer as a base-128 varint,
least significant group first. -/
def putUvarintAux : Nat → Nat → Bytes
  | 0, n => [n % 128]
  | fuel + 1, n => if n < 128 then [n] else (n % 128 + 128) :: putUvarintAux fuel (n / 128)

/-- Modelled from the spec: the length and version fields of a backup record
(section 4.3), missing from the sources: the varint of `n`; `n` steps always
suffice. -/
def putUvarint (n : Nat) : Bytes := putUvarintAux n n

/-- Modelled from the spec: the length and version fields of a backup record
(section 4.3), missing from the sources: reading a varint off the front of the
input. -/
def getUvarint : Bytes → Option (Nat × Bytes)
  | [] => none
  | b :: rest =>
    if b < 128 then some (b, rest)
    else match getUvarint rest with
      | none => none
      | some (n, r) => some (b - 128 + 128 * n, r)

/-- Modelled from the spec: the format tag section 6 requires in the header of a
backup stream, missing from the sources. -/
def streamHeader : Bytes := ascii "BKUP" ++ [1]

/-- Modelled from the spec: the record of section 4.3, missing from the sources:
self-delimited by its key length, value length, version and tombstone flag. -/
def putRecord (e : Entry) : Bytes :=
  putUvarint e.key.length ++ putUvarint e.value.length ++ putUvarint e.version ++
    [if e.tombstone then 1 else 0] ++ e.key ++ e.value

/-- Modelled from the spec: the record of section 4.3, missing from the sources:
reading one record, `none` when the input ends inside it. -/
def getRecord (input : Bytes) : Option (Entry × Bytes) :=
  match getUvarint input with
  | none => none
  | some (klen, r1) =>
    match getUvarint r1 with
    | none => none
    | some (vlen, r2) =>
      match getUvarint r2 with
      | none => none
      | some (ver, r3) =>
        match r3 with
        | [] => none
        | flag :: r4 =>
          if r4.length < klen + vlen then none
          else some ({ key := r4.take klen, value := (r4.drop klen).take vlen,
                       version := ver, tombstone := decide (flag ≠ 0) }, r4.drop (klen + vlen))

/-- Modelled from the spec: the key-then-version order of a backup stream
(section 4.3), missing from the sources. -/
def entryLe (a b : Entry) : Bool :=
  bytesLt a.key b.key || (a.key == b.key && decide (a.version ≤ b.version))

/-- Modelled from the spec: the entries `backup(out_stream, since_version)` of
section 4.3 writes, missing from the sources: every entry of the snapshot
(tombstones included) with version greater than `since`, in a stable
key-then-version order; `since = 0` is the beginning and performs a full backup,
which leaves no entry of the snapshot out. -/
def Store.backupEntries (s : Store) (since : Nat) : List Entry :=
  (s.entries.filter (fun e =>
    decide ((since = 0 ∨ since < e.version) ∧ e.version ≤ s.version))).insertionSort
      (fun a b => entryLe a b = true)

/-- Modelled from the spec: `backup(out_stream, since_version)` of section 4.3,
missing from the sources: a format tag, then the record of every entry to
write. -/
def Store.backup (s : Store) (since : Nat) : Bytes :=
  streamHeader ++ ((s.backupEntries since).map putRecord).flatten

/-- Modelled from the spec: the replay of restore (section 4.3), missing from the
sources: the restored entries keep their versions and the store version follows
the highest one. -/
def Store.ingest (s : Store) (es : List Entry) : Store :=
  { entries := s.entries ++ es
    version := es.foldl (fun m e => max m e.version) s.version }

/-- Modelled from the spec: the record loop of restore (section 4.3), missing
from the sources: records are read in order, staged, and committed
whenever `maxPending` of them are pending and at the end of the input; a record
cut short is rejected before it is staged and the pending sub-batch is dropped. -/
def loadRecords : Nat → Nat → Store → List Entry → Bytes → Option EngineError × Store
  | 0, _, s, _, _ => (some .truncated, s)
  | fuel + 1, maxPending, s, pending, input =>
    if input = [] then (none, s.ingest pending)
    else match getRecord input with
      | none => (some .truncated, s)
      | some (e, rest) =>
        if maxPending ≤ (pending ++ [e]).length then
          loadRecords fuel maxPending (s.ingest (pending ++ [e])) [] rest
        else loadRecords fuel maxPending s (pending ++ [e]) rest

/-- Modelled from the spec: `restore(in_stream, max_pending_batch_size)` of
section 4.3, missing from the sources.  The fuel is the length of the input plus
one; every record takes at least one byte, so it never runs out. -/
def Store.load (s : Store) (stream : Bytes) (maxPending : Nat) : Option EngineError × Store :=
  if hasPrefix stream streamHeader then
    loadRecords (stream.length + 1) maxPending s [] (stream.drop streamHeader.length)
  else (some .truncated, s)

/-! ### The handle `db` -/

/-- A call on the global `db`, as the handlers make it: the kind of call and,
for `db.Update`, the operations its closure stages. -/
inductive StorageCall where
  | view
  | update (batch : List WriteOp)
  | backup (since : Nat)
  | load (maxPending : Nat)
deriving DecidableEq, Repr

/-- Modelled from the spec: the engine behind the global `db`, missing from the
sources: the store, whether the underlying storage is available (the `IO` error
of section 7 when it is not), which operations the engine admits (an engine may
refuse keys or sizes; the policy is a parameter), and the calls made so far. -/
structure DB where
  store : Store
  serving : Bool
  admits : WriteOp → Bool
  calls : List StorageCall

/-- Modelled from the spec: the read transaction of section 4.2, missing from the
sources: bound at open time to the highest committed version. -/
structure Txn where
  store : Store
  readTs : Nat

/-- Modelled from the spec: Go `txn.Get` followed by `item.Value`, missing from
the sources, as `get` of section 4.1 at the snapshot of the transaction. -/
def Txn.get (txn : Txn) (k : Bytes) : Except EngineError Bytes :=
  match txn.store.get k txn.readTs with
  | some v => .ok v
  | none => .error .notFound

/-- Modelled from the spec: the iterator of the engine, missing from the sources,
as `iterate` of section 4.1: the keys of the items that `it.Rewind(); it.Valid();
it.Next()` visits with `DefaultIteratorOptions` (no restriction on the leading
bytes). -/
def Txn.keys (txn : Txn) : List Bytes :=
  (txn.store.iterate [] txn.readTs).map (fun kv => kv.1)

/-- Modelled from the spec: Go `db.View(fn)`, missing from the sources, as the
read transaction of section 4.2: `fn` runs in a read transaction and edits the variables it
captured (`init`); when the storage is unavailable the call returns the error
and `fn` has not run. -/
def DB.view {σ : Type} (db : DB) (fn : Txn → σ → Option EngineError × σ) (init : σ) :
    Option EngineError × σ × DB :=
  let db1 := { db with calls := db.calls ++ [StorageCall.view] }
  if db.serving then
    let r := fn { store := db.store, readTs := db.store.version } init
    (r.1, r.2, db1)
  else (some .ioFailure, init, db1)

/-- Modelled from the spec: Go `db.Update(fn)`, missing from the sources, as the
write transaction of sections 4.2 and 7, for a closure that stages `batch`: the
transaction commits as a whole, or fails and leaves the store as it was. -/
def DB.update (db : DB) (batch : List WriteOp) : Option EngineError × DB :=
  let db1 := { db with calls := db.calls ++ [StorageCall.update batch] }
  if !db.serving then (some .ioFailure, db1)
  else if batch.all db.admits then (none, { db1 with store := db.store.commit batch })
  else (some .rejected, db1)

/-- Modelled from the spec: Go `db.Backup(w, since)`, missing from the sources, as
`backup` of section 4.3: the stream goes to the writer; when the storage is
unavailable the call fails before anything is written. -/
def DB.backup (db : DB) (w : ResponseWriter) (since : Nat) :
    Option EngineError × ResponseWriter × DB :=
  let db1 := { db with calls := db.calls ++ [StorageCall.backup since] }
  if db.serving then (none, w.write (db.store.backup since), db1)
  else (some .ioFailure, w, db1)

/-- Modelled from the spec: Go `db.Load(r, maxPendingWrites)`, missing from the
sources, as `restore` of section 4.3. -/
def DB.load (db : DB) (stream : Bytes) (maxPending : Nat) : Option EngineError × DB :=
  let db1 := { db with calls := db.calls ++ [StorageCall.load maxPending] }
  if db.serving then
    ((db.store.load stream maxPending).1, { db1 with store := (db.store.load stream maxPending).2 })
  else (some .ioFailure, db1)

/-! ## `main.go`: the handlers -/

/-- The library functions and literals the handlers use, kept abstract: the HTML
literal of `serveHTML`, `json.NewDecoder(r.Body).Decode(&payload)` (the `Key` and
`Value` fields, `none` on error) and the JSON encoding of a string. -/
structure Lib where
  page : Bytes
  decodePayload : Bytes → Option (Bytes × Bytes)
  quote : Bytes → Bytes

/-- Go `serveHTML`. -/
def serveHTML (lib : Lib) : HandlerFunc DB :=
  fun w _ db => ((w.setHeader "Content-Type" (ascii "text/html")).write lib.page, db)

/-- Go `append(keys, key)` on a possibly nil slice (`none`). -/
def appendKey (keys : Option (List Bytes)) (key : Bytes) : Option (List Bytes) :=
  match keys with
  | none => some [key]
  | some l => some (l ++ [key])

/-- The elements of a possibly nil slice. -/
def sliceElems (keys : Option (List Bytes)) : List Bytes := keys.getD []

/-- Go `json.NewEncoder(w).Encode(keys)` for `keys []string`: `null` for the nil
slice, else the array of the encoded strings; a newline ends the value. -/
def encodeKeys (lib : Lib) : Option (List Bytes) → Bytes
  | none => ascii "null\n"
  | some l => [91] ++ List.intercalate [44] (l.map lib.quote) ++ [93, 10]

/-- The closure of `handleListKeys`: the loop over the iterator. -/
def listKeysLoop (pfx : Bytes) (txn : Txn) (keys : Option (List Bytes)) :
    Option EngineError × Option (List Bytes) :=
  (none, txn.keys.foldl
    (fun keys key => if pfx = [] ∨ hasPrefix key pfx = true then appendKey keys key else keys) keys)

/-- The slice `keys` of `handleListKeys` when `db.View` has returned. -/
def listedKeys (r : Request) (db : DB) : Option (List Bytes) :=
  (db.view (listKeysLoop (valuesGet r.query "prefix")) none).2.1

/-- Go `handleListKeys`. -/
def handleListKeys (lib : Lib) : HandlerFunc DB :=
  fun w r db =>
    let res := db.view (listKeysLoop (valuesGet r.query "prefix")) none
    (w.write (encodeKeys lib res.2.1), res.2.2)

/-- The closure of `handleGetKey`. -/
def getKeyFn (key : Bytes) (txn : Txn) (val : Bytes) : Option EngineError × Bytes :=
  match txn.get key with
  | .error e => (some e, val)
  | .ok v => (none, [] ++ v)

/-- Go `handleGetKey`. -/
def handleGetKey : HandlerFunc DB :=
  fun w r db =>
    let res := db.view (getKeyFn (valuesGet r.query "key")) []
    match res.1 with
    | some _ => (httpError w (ascii "Key not found") 404, res.2.2)
    | none => ((w.setHeader "Content-Type" (ascii "application/json")).write res.2.1, res.2.2)

/-- Go `handleSetKey`. -/
def handleSetKey (lib : Lib) : HandlerFunc DB :=
  fun w r db =>
    match lib.decodePayload r.body with
    | none => (httpError w (ascii "Invalid input") 400, db)
    | some (key, value) =>
      let res := db.update [WriteOp.set key value]
      match res.1 with
      | some _ => (httpError w (ascii "Failed to write key") 500, res.2)
      | none => (w.writeHeader 200, res.2)

/-- Go `handleDeleteKey`. -/
def handleDeleteKey : HandlerFunc DB :=
  fun w r db =>
    let res := db.update [WriteOp.delete (valuesGet r.query "key")]
    match res.1 with
    | some _ => (httpError w (ascii "Failed to delete key") 500, res.2)
    | none => (w.writeHeader 200, res.2)

/-- Go `handleBackup`. -/
def handleBackup : HandlerFunc DB :=
  fun w _ db =>
    let w1 := (w.setHeader "Content-Disposition"
      (ascii "attachment; filename=badger-backup.bak")).setHeader
        "Content-Type" (ascii "application/octet-stream")
    let res := db.backup w1 0
    match res.1 with
    | some _ => (httpError res.2.1 (ascii "Backup failed") 500, res.2.2)
    | none => (res.2.1, res.2.2)

/-- Go `handleRestore`.  The argument of `r.ParseMultipartForm` is how much of
the form is kept in memory, not a bound on the upload: a file of any size reaches
`db.Load`, as here. -/
def handleRestore : HandlerFunc DB :=
  fun w r db =>
    match r.formFile with
    | none => (httpError w (ascii "Failed to read backup file") 400, db)
    | some file =>
      let res := db.load file 10
      match res.1 with
      | some _ => (httpError w (ascii "Restore failed") 500, res.2)
      | none => (w.write (ascii "Restore completed"), res.2)

/-- Go `fmt.Sprintf("%d", n)` for a count. -/
def decimal (n : Nat) : Bytes := ascii (Nat.repr n)

/-- The closure of the `/debug-count` handler. -/
def countLoop (txn : Txn) (count : Nat) : Option EngineError × Nat :=
  (none, txn.keys.foldl (fun count _ => count + 1) count)

/-- The handler registered for `/debug-count` in `main`. -/
def handleDebugCount : HandlerFunc DB :=
  fun w _ db =>
    let res := db.view countLoop 0
    (w.write (ascii "Total keys: " ++ decimal res.2.1), res.2.2)

/-- The registrations of `main`, in order. -/
def routes (cfg : Config) (lib : Lib) : List (String × HandlerFunc DB) :=
  [("/", withAuth cfg (serveHTML lib)),
   ("/keys", withAuth cfg (handleListKeys lib)),
   ("/get", withAuth cfg handleGetKey),
   ("/set", withAuth cfg (handleSetKey lib)),
   ("/delete", withAuth cfg handleDeleteKey),
   ("/backup", withAuth cfg handleBackup),
   ("/restore", withAuth cfg handleRestore),
   ("/debug-count", withAuth cfg handleDebugCount)]

/-- Serving one request with a handler: a fresh writer goes in, the response and
the new process state come out. -/
def serve (h : HandlerFunc DB) (r : Request) (db : DB) : Response × DB :=
  ((h ResponseWriter.fresh r db).1.finish, (h ResponseWriter.fresh r db).2)

/-! ## Statements used by the theorems -/

/-- The request carries the configured credentials: its `Authorization` header
is `Basic ` followed by text whose base64 decoding is the username, a colon and
the password, the colon being the first one of the decoded text. -/
def Authorized (cfg : Config) (r : Request) : Prop :=
  ∃ rest, valuesGet r.header "Authorization" = ascii "Basic " ++ rest ∧
    (decodeString rest).1 = cfg.username ++ 58 :: cfg.password ∧ 58 ∉ cfg.username

/-- The response `headerAuth` produces on a fresh writer. -/
def unauthorized : Response :=
  { status := 401
    header := [("X-Content-Type-Options", ascii "nosniff"),
      ("Content-Type", ascii "text/plain; charset=utf-8"),
      ("WWW-Authenticate", ascii "Basic realm=Restricted")]
    body := ascii "Unauthorized\n" }

/-- An engine that admits every operation, holding the given store. -/
def DB.ofStore (s : Store) : DB :=
  { store := s, serving := true, admits := fun _ => true, calls := [] }

/-- A request with only the given query parameters. -/
def Request.ofQuery (q : List (String × Bytes)) : Request :=
  { header := [], query := q, body := [], formFile := none }

/-- A sample `Lib`: the payload is a one-byte key followed by the value, and a
string is quoted without escapes. -/
def sampleLib : Lib :=
  { page := ascii "<html></html>"
    decodePayload := fun b => match b with
      | [] => none
      | k :: v => some ([k], v)
    quote := fun b => [34] ++ b ++ [34] }

/-- The default configuration: no environment variable is set. -/
def defaultConfig : Config := loadConfig (fun _ => [])

/-- A list of keys in strictly ascending lexicographic order. -/
def Ascending (l : List Bytes) : Prop := l.Pairwise (fun a b => bytesLt a b = true)

/-- The key has a value (is stored and not deleted) at the store's current
snapshot. -/
def Store.Live (s : Store) (k : Bytes) : Prop := (s.get k s.version).isSome = true

/-- The response of `handleGetKey` for a stored value. -/
def foundResponse (v : Bytes) : Response :=
  { status := 200, header := [("Content-Type", ascii "application/json")], body := v }

/-- The response of `http.Error(w, msg, code)` on a fresh writer. -/
def errorResponse (msg : String) (code : Nat) : Response :=
  { status := code
    header := [("X-Content-Type-Options", ascii "nosniff"),
      ("Content-Type", ascii "text/plain; charset=utf-8")]
    body := ascii msg ++ [10] }

/-- A sample store: `a1` and `b` were set, then `a1` was deleted and `a2` set. -/
def sampleStore : Store :=
  (((Store.empty.commit [WriteOp.set (ascii "a1") (ascii "1")]).commit
    [WriteOp.set (ascii "b") (ascii "2")]).commit
    [WriteOp.delete (ascii "a1")]).commit [WriteOp.set (ascii "a2") (ascii "3")]

/-- The response of a handler that wrote `body` with no header set. -/
def plainResponse (body : Bytes) : Response :=
  { status := 200, header := [], body := body }

/-- Every entry of the store carries a version the store has committed. -/
def Store.Consistent (s : Store) : Prop := ∀ e ∈ s.entries, e.version ≤ s.version

/-- The two write endpoints. -/
inductive Endpoint where
  | set
  | delete
deriving DecidableEq, Repr

/-- A write request as it arrives: the endpoint, the request, and whether the
storage is available at that moment. -/
structure Arrival where
  endpoint : Endpoint
  request : Request
  serving : Bool

/-- Serving one write request. -/
def handleArrival (lib : Lib) (db : DB) (a : Arrival) : Response × DB :=
  match a.endpoint with
  | .set => serve (handleSetKey lib) a.request { db with serving := a.serving }
  | .delete => serve handleDeleteKey a.request { db with serving := a.serving }

/-- Serving a sequence of write requests in order: the responses and the final
process state. -/
def runArrivals (lib : Lib) : DB → List Arrival → List Response × DB
  | db, [] => ([], db)
  | db, a :: rest =>
    ((handleArrival lib db a).1 :: (runArrivals lib (handleArrival lib db a).2 rest).1,
      (runArrivals lib (handleArrival lib db a).2 rest).2)

/-- The operation a write request asks for: the `Set` of the decoded `key` and
raw `value` members, or the `Delete` of the `key` query parameter. -/
def requestedOp (lib : Lib) (a : Arrival) : Option WriteOp :=
  match a.endpoint with
  | .set =>
    match lib.decodePayload a.request.body with
    | some (key, value) => some (WriteOp.set key value)
    | none => none
  | .delete => some (WriteOp.delete (valuesGet a.request.query "key"))

/-- The most recent operation on key `k` in a sequence of write requests. -/
def lastWrite (lib : Lib) (k : Bytes) : List Arrival → Option WriteOp
  | [] => none
  | a :: rest =>
    match lastWrite lib k rest with
    | some op => some op
    | none =>
      match requestedOp lib a with
      | some op => if op.key = k then some op else none
      | none => none

/-- The value a committed operation leaves under its key. -/
def WriteOp.result : WriteOp → Option Bytes
  | .set _ v => some v
  | .delete _ => none

/-- The sample store with one more entry, of version 0, as a restore of a stream
that carries such a record leaves it. -/
def versionZeroStore : Store :=
  { entries := { key := ascii "z", value := ascii "9", version := 0, tombstone := false } ::
      sampleStore.entries
    version := sampleStore.version }

/-- A `/set` of key `k` to `1`, a `/delete` of `k`, then a `/set` of `k` to `7`,
all with the storage available. -/
def sampleArrivals : List Arrival :=
  [{ endpoint := Endpoint.set
     request := { header := [], query := [], body := ascii "k1", formFile := none }
     serving := true },
   { endpoint := Endpoint.delete
     request := Request.ofQuery [("key", ascii "k")]
     serving := true },
   { endpoint := Endpoint.set
     request := { header := [], query := [], body := ascii "k7", formFile := none }
     serving := true }]

/-- The upload of the backup of `versionZeroStore`. -/
def sampleUpload : Request :=
  { header := [], query := [], body := []
    formFile := some
      (serve handleBackup (Request.ofQuery []) (DB.ofStore versionZeroStore)).1.body }

/-! ## Strings: lemmas -/

theorem hasPrefix_iff (s p : Bytes) : hasPrefix s p = true ↔ ∃ t, s = p ++ t := by
  unfold hasPrefix
  rw [ List.isPrefixOf_iff_prefix]
  constructor
  · rintro ⟨t, ht⟩; exact ⟨t, ht.symm⟩
  · rintro ⟨t, ht⟩; exact ⟨t, ht.symm⟩

theorem hasPrefix_append (p t : Bytes) : hasPrefix (p ++ t) p = true :=
  (hasPrefix_iff _ _).2 ⟨t, rfl⟩

theorem trimPrefix_append (p t : Bytes) : trimPrefix (p ++ t) p = t := by
  unfold trimPrefix
  rw [if_pos (hasPrefix_append p t)]
  simp

theorem cut_eq_some_iff (sep : Nat) (s a b : Bytes) :
    cut sep s = some (a, b) ↔ s = a ++ sep :: b ∧ sep ∉ a := by
  induction s generalizing a b with
  | nil => simp [cut]
  | cons c rest ih =>
    unfold cut
    by_cases hc : c = sep
    · subst hc
      rw [if_pos rfl]
      constructor
      · intro h
        simp only [Option.some.injEq, Prod.mk.injEq] at h
        obtain ⟨rfl, rfl⟩ := h
        simp
      · rintro ⟨h, hn⟩
        cases a with
        | nil => simp at h; simp [h]
        | cons x xs =>
          simp at h
          exact absurd (by simp [h.1]) hn
    · rw [if_neg hc]
      cases hcut : cut sep rest with
      | none =>
        simp only [false_iff, not_and, reduceCtorEq]
        intro h hn
        cases a with
        | nil => simp at h; exact hc h.1
        | cons x xs =>
          simp at h
          have := (ih xs b).2 ⟨h.2, fun hm => hn (List.mem_cons_of_mem _ hm)⟩
          rw [hcut] at this
          cases this
      | some p =>
        obtain ⟨a1, b1⟩ := p
        have h1 := (ih a1 b1).1 hcut
        simp only [Option.some.injEq, Prod.mk.injEq]
        constructor
        · rintro ⟨rfl, rfl⟩
          refine ⟨by simp [h1.1], ?_⟩
          simp only [List.mem_cons, not_or]
          exact ⟨fun h => hc h.symm, h1.2⟩
        · rintro ⟨h, hn⟩
          cases a with
          | nil => simp at h; exact absurd h.1 hc
          | cons x xs =>
            simp at h
            have := (ih xs b).2 ⟨h.2, fun hm => hn (List.mem_cons_of_mem _ hm)⟩
            rw [hcut] at this
            simp only [Option.some.injEq, Prod.mk.injEq] at this
            simp [h.1, this.1, this.2]

/-- Go `SplitN(s, sep, 2)` yields exactly the two parts `a`, `b` iff `s` is `a`, the
separator, `b`, with no separator inside `a`. -/
theorem splitN2_eq_pair_iff (sep : Nat) (s a b : Bytes) :
    ((splitN2 s sep).length = 2 ∧ (splitN2 s sep).getD 0 [] = a ∧ (splitN2 s sep).getD 1 [] = b) ↔
      (s = a ++ sep :: b ∧ sep ∉ a) := by
  unfold splitN2
  cases hcut : cut sep s with
  | none =>
    simp only [List.length_singleton, OfNat.one_ne_ofNat, false_and, false_iff]
    intro h
    have := (cut_eq_some_iff sep s a b).2 h
    rw [hcut] at this
    cases this
  | some p =>
    obtain ⟨a1, b1⟩ := p
    rw [← cut_eq_some_iff, hcut]
    simp

/-! ## base64: decoding an encoding -/

theorem decodeMap_encodeChar : ∀ i : Fin 64, decodeMap (encodeChar i.val) = i.val := by
  decide

theorem decodeMap_encodeChar_lt (i : Nat) (hi : i < 64) :
    decodeMap (encodeChar i) = i := decodeMap_encodeChar ⟨i, hi⟩

theorem decodeMap_encodeChar_ne (i : Nat) (hi : i < 64) :
    decodeMap (encodeChar i) ≠ 255 := by
  rw [decodeMap_encodeChar_lt i hi]; omega

theorem decodeFrom_quantum (i0 i1 i2 i3 : Nat) (h0 : i0 < 64) (h1 : i1 < 64) (h2 : i2 < 64)
    (h3 : i3 < 64) (rest : Bytes) :
    decodeFrom (encodeChar i0 :: encodeChar i1 :: encodeChar i2 :: encodeChar i3 :: rest) [] =
      (assemble [i0, i1, i2, i3] 4 ++ (decodeFrom rest []).1, (decodeFrom rest []).2) := by
  rw [decodeFrom, if_pos (decodeMap_encodeChar_ne i0 h0), if_neg (by simp)]
  rw [decodeFrom, if_pos (decodeMap_encodeChar_ne i1 h1), if_neg (by simp)]
  rw [decodeFrom, if_pos (decodeMap_encodeChar_ne i2 h2), if_neg (by simp)]
  rw [decodeFrom, if_pos (decodeMap_encodeChar_ne i3 h3), if_pos (by simp)]
  simp [decodeMap_encodeChar_lt, h0, h1, h2, h3]

theorem decodeFrom_pad1 (i0 i1 i2 : Nat) (h0 : i0 < 64) (h1 : i1 < 64) (h2 : i2 < 64) :
    decodeFrom [encodeChar i0, encodeChar i1, encodeChar i2, 61] [] =
      (assemble [i0, i1, i2] 3, false) := by
  rw [decodeFrom, if_pos (decodeMap_encodeChar_ne i0 h0), if_neg (by simp)]
  rw [decodeFrom, if_pos (decodeMap_encodeChar_ne i1 h1), if_neg (by simp)]
  rw [decodeFrom, if_pos (decodeMap_encodeChar_ne i2 h2), if_neg (by simp)]
  rw [decodeFrom, if_neg (by decide), if_neg (by decide), if_neg (by decide)]
  simp [decodeMap_encodeChar_lt, h0, h1, h2, skipNewlines]

theorem decodeFrom_pad2 (i0 i1 : Nat) (h0 : i0 < 64) (h1 : i1 < 64) :
    decodeFrom [encodeChar i0, encodeChar i1, 61, 61] [] = (assemble [i0, i1] 2, false) := by
  rw [decodeFrom, if_pos (decodeMap_encodeChar_ne i0 h0), if_neg (by simp)]
  rw [decodeFrom, if_pos (decodeMap_encodeChar_ne i1 h1), if_neg (by simp)]
  rw [decodeFrom, if_neg (by decide), if_neg (by decide), if_neg (by decide)]
  simp [decodeMap_encodeChar_lt, h0, h1, skipNewlines]

theorem assemble_three (b0 b1 b2 : Nat) (h0 : b0 < 256) (h1 : b1 < 256) (h2 : b2 < 256) :
    assemble [(b0 * 2 ^ 16 + b1 * 2 ^ 8 + b2) / 2 ^ 18 % 64,
      (b0 * 2 ^ 16 + b1 * 2 ^ 8 + b2) / 2 ^ 12 % 64,
      (b0 * 2 ^ 16 + b1 * 2 ^ 8 + b2) / 2 ^ 6 % 64,
      (b0 * 2 ^ 16 + b1 * 2 ^ 8 + b2) % 64] 4 = [b0, b1, b2] := by
  simp only [assemble, List.getD_cons_zero, List.getD_cons_succ]
  norm_num
  refine ⟨?_, ?_, ?_⟩ <;> omega

theorem assemble_two (b0 b1 : Nat) (h0 : b0 < 256) (h1 : b1 < 256) :
    assemble [(b0 * 2 ^ 16 + b1 * 2 ^ 8) / 2 ^ 18 % 64,
      (b0 * 2 ^ 16 + b1 * 2 ^ 8) / 2 ^ 12 % 64,
      (b0 * 2 ^ 16 + b1 * 2 ^ 8) / 2 ^ 6 % 64] 3 = [b0, b1] := by
  simp only [assemble, List.getD_cons_zero, List.getD_cons_succ, List.getD_nil]
  norm_num
  refine ⟨?_, ?_⟩ <;> omega

theorem assemble_one (b0 : Nat) (h0 : b0 < 256) :
    assemble [(b0 * 2 ^ 16) / 2 ^ 18 % 64, (b0 * 2 ^ 16) / 2 ^ 12 % 64] 2 = [b0] := by
  simp only [assemble, List.getD_cons_zero, List.getD_cons_succ, List.getD_nil]
  norm_num
  omega

/-- Decoding the standard encoding of a byte string gives the string back,
without error. -/
theorem decodeString_encodeToString :
    ∀ (n : Nat) (bs : Bytes), bs.length ≤ n → (∀ b ∈ bs, b < 256) →
      decodeString (encodeToString bs) = (bs, false)
  | _, [], _, _ => by simp [decodeString, encodeToString, decodeFrom]
  | _, [b0], _, hb => by
    have h0 : b0 < 256 := hb b0 (by simp)
    simp only [decodeString, encodeToString]
    rw [decodeFrom_pad2 _ _ (Nat.mod_lt _ (by norm_num)) (Nat.mod_lt _ (by norm_num)),
      assemble_one b0 h0]
  | _, [b0, b1], _, hb => by
    have h0 : b0 < 256 := hb b0 (by simp)
    have h1 : b1 < 256 := hb b1 (by simp)
    simp only [decodeString, encodeToString]
    rw [decodeFrom_pad1 _ _ _ (Nat.mod_lt _ (by norm_num)) (Nat.mod_lt _ (by norm_num))
      (Nat.mod_lt _ (by norm_num)), assemble_two b0 b1 h0 h1]
  | 0, _ :: _ :: _ :: _, hn, _ => by simp at hn
  | n + 1, b0 :: b1 :: b2 :: rest, hn, hb => by
    have h0 : b0 < 256 := hb b0 (by simp)
    have h1 : b1 < 256 := hb b1 (by simp)
    have h2 : b2 < 256 := hb b2 (by simp)
    have ih := decodeString_encodeToString n rest (by simp at hn; omega)
      (fun b hm => hb b (by simp [hm]))
    simp only [decodeString] at ih ⊢
    simp only [encodeToString]
    rw [decodeFrom_quantum _ _ _ _ (Nat.mod_lt _ (by norm_num)) (Nat.mod_lt _ (by norm_num))
      (Nat.mod_lt _ (by norm_num)) (Nat.mod_lt _ (by norm_num)), assemble_three b0 b1 b2 h0 h1 h2,
      ih]
    simp

theorem headerAuth_fresh : (headerAuth ResponseWriter.fresh).finish = unauthorized := by
  decide

theorem withAuth_eq_of_authorized {σ : Type} (cfg : Config) (r : Request)
    (hA : Authorized cfg r) (h : HandlerFunc σ) (w : ResponseWriter) (st : σ) :
    withAuth cfg h w r st = h w r st := by
  obtain ⟨rest, hh, hd, hn⟩ := hA
  have hs := (splitN2_eq_pair_iff 58 _ cfg.username cfg.password).2 ⟨hd, hn⟩
  simp only [withAuth, hh, hasPrefix_append, trimPrefix_append, Bool.not_true]
  rw [if_neg (by simp), if_neg]
  rintro (h1 | h1 | h1)
  · exact h1 hs.1
  · exact h1 hs.2.1
  · exact h1 hs.2.2

theorem withAuth_eq_of_not_authorized {σ : Type} (cfg : Config) (r : Request)
    (hA : ¬ Authorized cfg r) (h : HandlerFunc σ) (w : ResponseWriter) (st : σ) :
    withAuth cfg h w r st = (headerAuth w, st) := by
  simp only [withAuth]
  by_cases hp : hasPrefix (valuesGet r.header "Authorization") (ascii "Basic ") = true
  · obtain ⟨rest, hrest⟩ := (hasPrefix_iff _ _).1 hp
    simp only [hrest, hasPrefix_append, trimPrefix_append, Bool.not_true]
    rw [if_neg (by simp)]
    by_cases hs : (splitN2 (decodeString rest).1 58).length = 2 ∧
        (splitN2 (decodeString rest).1 58).getD 0 [] = cfg.username ∧
        (splitN2 (decodeString rest).1 58).getD 1 [] = cfg.password
    · exact absurd ⟨rest, hrest, (splitN2_eq_pair_iff 58 _ _ _).1 hs⟩ hA
    · rw [if_pos]
      by_contra hc
      simp only [not_or, not_not] at hc
      exact hs ⟨hc.1, hc.2.1, hc.2.2⟩
  · simp [hp]

/-- C1: `withAuth(h)` runs `h` only for a request that carries the configured
credentials (`Authorization` is `Basic ` plus text whose base64 decoding splits
at its first colon into username and password); for every other request `h`
is not run, the process state (store and storage calls) is unchanged and the
response is 401 with `WWW-Authenticate: Basic realm=Restricted` and the text
`Unauthorized` (newline-terminated by `http.Error`).  The eight routes of `main`
are all registered through `withAuth`. -/
theorem withAuth_guards_every_route (cfg : Config) (lib : Lib) (r : Request) (db : DB) :
    (Authorized cfg r → ∀ (h : HandlerFunc DB) (w : ResponseWriter),
        withAuth cfg h w r db = h w r db) ∧
    (¬ Authorized cfg r → ∀ (h : HandlerFunc DB),
        serve (withAuth cfg h) r db = (unauthorized, db)) ∧
    unauthorized.status = 401 ∧
    unauthorized.body = ascii "Unauthorized" ++ [10] ∧
    valuesGet unauthorized.header "WWW-Authenticate" = ascii "Basic realm=Restricted" ∧
    (routes cfg lib).map (fun p => p.1) =
      ["/", "/keys", "/get", "/set", "/delete", "/backup", "/restore", "/debug-count"] ∧
    (∀ route ∈ routes cfg lib, ∃ h, route.2 = withAuth cfg h) ∧
    (¬ Authorized cfg r → ∀ route ∈ routes cfg lib, serve route.2 r db = (unauthorized, db)) := by
  have hno : ¬ Authorized cfg r → ∀ (h : HandlerFunc DB),
      serve (withAuth cfg h) r db = (unauthorized, db) := by
    intro hA h
    simp only [serve, withAuth_eq_of_not_authorized cfg r hA, headerAuth_fresh]
  have hwrapped : ∀ route ∈ routes cfg lib, ∃ h, route.2 = withAuth cfg h := by
    intro route hm
    simp only [routes, List.mem_cons, List.mem_singleton, List.not_mem_nil, or_false] at hm
    rcases hm with h | h | h | h | h | h | h | h <;> subst h <;> exact ⟨_, rfl⟩
  refine ⟨fun hA h w => withAuth_eq_of_authorized cfg r hA h w db, hno, rfl, by decide, by decide,
    rfl, hwrapped, ?_⟩
  intro hA route hm
  obtain ⟨h, hh⟩ := hwrapped route hm
  rw [hh]
  exact hno hA h

theorem not_authorized_of_no_header (cfg : Config) (r : Request) (h : r.header = []) :
    ¬ Authorized cfg r := by
  rintro ⟨rest, hh, _⟩
  rw [h] at hh
  simp [valuesGet, ascii] at hh

/-- A request without credentials to `/set` is answered 401 and leaves the
process state alone. -/
theorem withAuth_guards_every_route_witness :
    serve (withAuth defaultConfig (handleSetKey sampleLib))
        { header := [], query := [], body := ascii "k1", formFile := none }
        (DB.ofStore Store.empty) =
      (unauthorized, DB.ofStore Store.empty) :=
  (withAuth_guards_every_route defaultConfig sampleLib
    { header := [], query := [], body := ascii "k1", formFile := none }
    (DB.ofStore Store.empty)).2.1
    (not_authorized_of_no_header _ _ rfl) (handleSetKey sampleLib)

/-- C10: for a username without a colon and any password, a request whose
`Authorization` header is `Basic ` followed by the standard base64 encoding of
username, colon, password passes `withAuth`: the outcome is exactly that of the
wrapped handler on that request, so no 401 is written. -/
theorem withAuth_accepts_configured_credentials {σ : Type} (cfg : Config) (r : Request)
    (hcolon : 58 ∉ cfg.username)
    (hu : ∀ b ∈ cfg.username, b < 256) (hp : ∀ b ∈ cfg.password, b < 256)
    (hauth : valuesGet r.header "Authorization" =
      ascii "Basic " ++ encodeToString (cfg.username ++ 58 :: cfg.password))
    (h : HandlerFunc σ) (w : ResponseWriter) (st : σ) :
    withAuth cfg h w r st = h w r st := by
  apply withAuth_eq_of_authorized
  refine ⟨_, hauth, ?_, hcolon⟩
  rw [decodeString_encodeToString _ _ le_rfl]
  intro b hb
  simp only [List.mem_append, List.mem_cons] at hb
  rcases hb with hb | hb | hb
  · exact hu b hb
  · omega
  · exact hp b hb

/-- The page's own credentials `admin:botfluence` pass the default
configuration. -/
theorem withAuth_accepts_configured_credentials_witness :
    withAuth defaultConfig handleGetKey ResponseWriter.fresh
        { header := [("Authorization", ascii "Basic YWRtaW46Ym90Zmx1ZW5jZQ==")],
          query := [("key", ascii "a")], body := [], formFile := none }
        (DB.ofStore Store.empty) =
      handleGetKey ResponseWriter.fresh
        { header := [("Authorization", ascii "Basic YWRtaW46Ym90Zmx1ZW5jZQ==")],
          query := [("key", ascii "a")], body := [], formFile := none }
        (DB.ofStore Store.empty) :=
  withAuth_accepts_configured_credentials defaultConfig
    { header := [("Authorization", ascii "Basic YWRtaW46Ym90Zmx1ZW5jZQ==")],
      query := [("key", ascii "a")], body := [], formFile := none }
    (by decide) (by decide) (by decide) (by decide) handleGetKey ResponseWriter.fresh
    (DB.ofStore Store.empty)

/-! ## Order on keys -/

theorem bytesLt_irrefl : ∀ a : Bytes, bytesLt a a = false
  | [] => rfl
  | a :: as => by simp [bytesLt, bytesLt_irrefl as]

theorem bytesLt_trans : ∀ a b c : Bytes, bytesLt a b = true → bytesLt b c = true →
    bytesLt a c = true
  | [], [], _, h, _ => by simp [bytesLt] at h
  | [], _ :: _, [], _, h => by simp [bytesLt] at h
  | [], _ :: _, _ :: _, _, _ => by simp [bytesLt]
  | _ :: _, [], _, h, _ => by simp [bytesLt] at h
  | _ :: _, _ :: _, [], _, h => by simp [bytesLt] at h
  | a :: as, b :: bs, c :: cs, h1, h2 => by
    simp only [bytesLt] at h1 h2 ⊢
    by_cases hab : a < b
    · by_cases hbc : b < c
      · rw [if_pos (by omega)]
      · rw [if_neg hbc] at h2
        by_cases hcb : c < b
        · simp [hcb] at h2
        · rw [if_pos (by omega)]
    · rw [if_neg hab] at h1
      by_cases hba : b < a
      · simp [hba] at h1
      · rw [if_neg hba] at h1
        have hab' : a = b := by omega
        subst hab'
        by_cases hbc : a < c
        · rw [if_pos hbc]
        · rw [if_neg hbc] at h2 ⊢
          by_cases hcb : c < a
          · simp [hcb] at h2
          · rw [if_neg hcb] at h2 ⊢
            exact bytesLt_trans as bs cs h1 h2

theorem bytesLt_total : ∀ a b : Bytes, bytesLt a b = false → a ≠ b → bytesLt b a = true
  | [], [], _, h => absurd rfl h
  | [], _ :: _, h, _ => by simp [bytesLt] at h
  | _ :: _, [], _, _ => by simp [bytesLt]
  | a :: as, b :: bs, h1, h2 => by
    simp only [bytesLt] at h1 ⊢
    by_cases hab : a < b
    · simp [hab] at h1
    · rw [if_neg hab] at h1
      by_cases hba : b < a
      · rw [if_pos hba]
      · rw [if_neg hba] at h1 ⊢
        rw [if_neg hab]
        have hab' : a = b := by omega
        subst hab'
        exact bytesLt_total as bs h1 (fun h => h2 (by rw [h]))

theorem mem_insertKey (k x : Bytes) : ∀ l : List Bytes, x ∈ insertKey k l ↔ x = k ∨ x ∈ l
  | [] => by simp [insertKey]
  | y :: ys => by
    unfold insertKey
    by_cases h1 : bytesLt k y = true
    · rw [if_pos h1]; simp
    · rw [if_neg h1]
      by_cases h2 : k = y
      · rw [if_pos h2]; subst h2; simp
      · rw [if_neg h2]
        simp only [List.mem_cons, mem_insertKey k x ys]
        tauto

theorem ascending_insertKey (k : Bytes) : ∀ l : List Bytes, Ascending l → Ascending (insertKey k l)
  | [], _ => by simp [insertKey, Ascending]
  | y :: ys, h => by
    unfold Ascending at h ⊢
    unfold insertKey
    rw [List.pairwise_cons] at h
    by_cases h1 : bytesLt k y = true
    · rw [if_pos h1]
      refine List.pairwise_cons.2 ⟨?_, List.pairwise_cons.2 h⟩
      intro z hz
      rcases List.mem_cons.1 hz with rfl | hz
      · exact h1
      · exact bytesLt_trans _ _ _ h1 (h.1 z hz)
    · rw [if_neg h1]
      by_cases h2 : k = y
      · rw [if_pos h2]; exact List.pairwise_cons.2 h
      · rw [if_neg h2]
        refine List.pairwise_cons.2 ⟨?_, ascending_insertKey k ys h.2⟩
        intro z hz
        rcases (mem_insertKey k z ys).1 hz with rfl | hz
        · exact bytesLt_total _ _ (by simpa using h1) h2
        · exact h.1 z hz

theorem mem_sortKeys (x : Bytes) : ∀ l : List Bytes, x ∈ sortKeys l ↔ x ∈ l
  | [] => by simp [sortKeys]
  | y :: ys => by
    have ih := mem_sortKeys x ys
    unfold sortKeys at ih ⊢
    rw [List.foldr_cons, mem_insertKey, ih]
    simp

theorem ascending_sortKeys : ∀ l : List Bytes, Ascending (sortKeys l)
  | [] => by simp [sortKeys, Ascending]
  | y :: ys => by
    have ih := ascending_sortKeys ys
    unfold sortKeys at ih ⊢
    rw [List.foldr_cons]
    exact ascending_insertKey y _ ih

theorem ascending_nodup (l : List Bytes) (h : Ascending l) : l.Nodup := by
  unfold Ascending at h
  refine h.imp ?_
  intro a b hab heq
  subst heq
  rw [bytesLt_irrefl] at hab
  cases hab

/-- Two strictly ascending key lists with the same members are equal. -/
theorem ascending_ext : ∀ (l1 l2 : List Bytes), Ascending l1 → Ascending l2 →
    (∀ k, k ∈ l1 ↔ k ∈ l2) → l1 = l2
  | [], [], _, _, _ => rfl
  | [], y :: ys, _, _, h => by have := (h y).2 (by simp); simp at this
  | x :: xs, [], _, _, h => by have := (h x).1 (by simp); simp at this
  | x :: xs, y :: ys, h1, h2, h => by
    unfold Ascending at h1 h2
    rw [List.pairwise_cons] at h1 h2
    have hxy : x = y := by
      by_contra hne
      have hx : x ∈ ys := by
        rcases List.mem_cons.1 ((h x).1 (by simp)) with h' | h'
        · exact absurd h' hne
        · exact h'
      have hy : y ∈ xs := by
        rcases List.mem_cons.1 ((h y).2 (by simp)) with h' | h'
        · exact absurd h'.symm hne
        · exact h'
      have a1 := h1.1 y hy
      have a2 := h2.1 x hx
      have := bytesLt_trans _ _ _ a1 a2
      rw [bytesLt_irrefl] at this
      cases this
    subst hxy
    have hx1 : x ∉ xs := fun hm => by
      have := h1.1 x hm; rw [bytesLt_irrefl] at this; cases this
    have hx2 : x ∉ ys := fun hm => by
      have := h2.1 x hm; rw [bytesLt_irrefl] at this; cases this
    rw [ascending_ext xs ys h1.2 h2.2]
    intro k
    constructor
    · intro hk
      rcases List.mem_cons.1 ((h k).1 (List.mem_cons_of_mem _ hk)) with h' | h'
      · subst h'; exact absurd hk hx1
      · exact h'
    · intro hk
      rcases List.mem_cons.1 ((h k).2 (List.mem_cons_of_mem _ hk)) with h' | h'
      · subst h'; exact absurd hk hx2
      · exact h'

/-! ## The iterator -/

theorem hasPrefix_nil (k : Bytes) : hasPrefix k [] = true := by
  simp [hasPrefix]

theorem iterate_keys (s : Store) (pfx : Bytes) (snap : Nat) :
    (s.iterate pfx snap).map (fun kv => kv.1) =
      (sortKeys (s.entries.map (fun e => e.key))).filter
        (fun k => hasPrefix k pfx && (s.get k snap).isSome) := by
  unfold Store.iterate
  induction sortKeys (s.entries.map (fun e => e.key)) with
  | nil => rfl
  | cons k ks ih =>
    rw [List.filterMap_cons, List.filter_cons]
    by_cases hp : hasPrefix k pfx = true
    · cases hg : s.get k snap with
      | none => simp [hp, ih]
      | some v => simp [hp, ih]
    · simp [hp, ih]

theorem foldl_appendKey (P : Bytes → Prop) [DecidablePred P] :
    ∀ (l : List Bytes) (init : Option (List Bytes)),
      sliceElems (l.foldl (fun keys key => if P key then appendKey keys key else keys) init) =
        sliceElems init ++ l.filter (fun k => decide (P k))
  | [], init => by simp
  | x :: xs, init => by
    rw [List.foldl_cons, foldl_appendKey P xs, List.filter_cons]
    by_cases hx : P x
    · cases init <;> simp [hx, appendKey, sliceElems]
    · simp [hx]

theorem foldl_appendKey_none (P : Bytes → Prop) [DecidablePred P] :
    ∀ (l : List Bytes), (∀ k ∈ l, ¬ P k) →
      l.foldl (fun keys key => if P key then appendKey keys key else keys) none = none
  | [], _ => rfl
  | x :: xs, h => by
    rw [List.foldl_cons, if_neg (h x (by simp))]
    exact foldl_appendKey_none P xs (fun k hk => h k (List.mem_cons_of_mem _ hk))

/-! ## The visible entry -/

theorem foldl_pickLatest_mem (k : Bytes) (snap : Nat) :
    ∀ (l : List Entry) (init : Option Entry) (e : Entry),
      l.foldl (pickLatest k snap) init = some e →
        init = some e ∨ (e ∈ l ∧ e.key = k ∧ e.version ≤ snap)
  | [], init, e, h => Or.inl h
  | x :: xs, init, e, h => by
    rw [List.foldl_cons] at h
    rcases foldl_pickLatest_mem k snap xs _ e h with h1 | h1
    · unfold pickLatest at h1
      by_cases hx : x.key = k ∧ x.version ≤ snap
      · rw [if_pos hx] at h1
        cases init with
        | none =>
          simp only [Option.some.injEq] at h1
          subst h1
          exact Or.inr ⟨by simp, hx.1, hx.2⟩
        | some b =>
          simp only at h1
          by_cases hb : b.version ≤ x.version
          · rw [if_pos hb] at h1
            simp only [Option.some.injEq] at h1
            subst h1
            exact Or.inr ⟨by simp, hx.1, hx.2⟩
          · rw [if_neg hb] at h1
            exact Or.inl h1
      · rw [if_neg hx] at h1
        exact Or.inl h1
    · exact Or.inr ⟨List.mem_cons_of_mem _ h1.1, h1.2⟩

theorem live_mem_keys (s : Store) (k : Bytes) (snap : Nat) (h : (s.get k snap).isSome = true) :
    k ∈ s.entries.map (fun e => e.key) := by
  unfold Store.get at h
  cases hl : s.latest k snap with
  | none => rw [hl] at h; simp at h
  | some e =>
    unfold Store.latest at hl
    rcases foldl_pickLatest_mem k snap _ _ e hl with h1 | h1
    · cases h1
    · exact List.mem_map.2 ⟨e, h1.1, h1.2.1⟩

/-! ## Listing keys -/

theorem listedKeys_serving (r : Request) (db : DB) (hs : db.serving = true) :
    sliceElems (listedKeys r db) =
      (sortKeys (db.store.entries.map (fun e => e.key))).filter
        (fun k => (db.store.get k db.store.version).isSome &&
          hasPrefix k (valuesGet r.query "prefix")) := by
  unfold listedKeys DB.view
  simp only [hs, if_true, listKeysLoop]
  rw [foldl_appendKey (fun key => valuesGet r.query "prefix" = [] ∨
    hasPrefix key (valuesGet r.query "prefix") = true)]
  simp only [Txn.keys, iterate_keys, sliceElems, Option.getD_none, List.nil_append,
    List.filter_filter, hasPrefix_nil, Bool.true_and]
  apply List.filter_congr
  intro k _
  by_cases hp : valuesGet r.query "prefix" = []
  · simp [hp, hasPrefix_nil]
  · simp [hp, Bool.and_comm]

/-- C6: with the engine serving, the key list `handleListKeys` encodes for
`/keys?prefix=p` is strictly ascending in lexicographic order, holds each key
once, and holds exactly the keys of the store that start with `p`; for an empty
or absent `p` it holds every key of the store. -/
theorem handleListKeys_lists_matching_keys (lib : Lib) (r : Request) (db : DB)
    (hs : db.serving = true) :
    (handleListKeys lib ResponseWriter.fresh r db).1.body = encodeKeys lib (listedKeys r db) ∧
    Ascending (sliceElems (listedKeys r db)) ∧
    (sliceElems (listedKeys r db)).Nodup ∧
    (∀ k, k ∈ sliceElems (listedKeys r db) ↔
      db.store.Live k ∧ hasPrefix k (valuesGet r.query "prefix") = true) ∧
    (valuesGet r.query "prefix" = [] →
      ∀ k, k ∈ sliceElems (listedKeys r db) ↔ db.store.Live k) := by
  have hmem : ∀ k, k ∈ sliceElems (listedKeys r db) ↔
      db.store.Live k ∧ hasPrefix k (valuesGet r.query "prefix") = true := by
    intro k
    rw [listedKeys_serving r db hs, List.mem_filter, mem_sortKeys]
    simp only [Bool.and_eq_true, Store.Live]
    constructor
    · exact fun h => h.2
    · exact fun h => ⟨live_mem_keys _ _ _ h.1, h⟩
  have hasc : Ascending (sliceElems (listedKeys r db)) := by
    rw [listedKeys_serving r db hs]
    exact List.Pairwise.filter _ (ascending_sortKeys _)
  refine ⟨?_, hasc, ascending_nodup _ hasc, hmem, ?_⟩
  · simp [handleListKeys, listedKeys, ResponseWriter.write, ResponseWriter.writeHeader,
      ResponseWriter.fresh]
  · intro hp k
    rw [hmem k, hp, hasPrefix_nil]
    simp

theorem httpError_fresh (msg : String) (code : Nat) :
    (httpError ResponseWriter.fresh (ascii msg) code).finish = errorResponse msg code := rfl

theorem listedKeys_none_of_no_match (r : Request) (db : DB)
    (h : ∀ k, ¬ (db.store.Live k ∧ hasPrefix k (valuesGet r.query "prefix") = true)) :
    listedKeys r db = none := by
  unfold listedKeys DB.view
  by_cases hs : db.serving = true
  · simp only [hs, if_true, listKeysLoop]
    apply foldl_appendKey_none (fun key => valuesGet r.query "prefix" = [] ∨
      hasPrefix key (valuesGet r.query "prefix") = true)
    intro k hk hP
    have hk2 : k ∈ (Txn.keys { store := db.store, readTs := db.store.version }) := hk
    simp only [Txn.keys, iterate_keys, List.mem_filter, Bool.and_eq_true] at hk2
    refine h k ⟨hk2.2.2, ?_⟩
    rcases hP with hP | hP
    · rw [hP]; exact hasPrefix_nil k
    · exact hP
  · simp [hs]

/-- C9: when no key of the store starts with the requested leading bytes (in
particular on an empty store), the body `handleListKeys` writes is the JSON text
`null` followed by a newline, with status 200: not the empty array. -/
theorem handleListKeys_writes_null_when_nothing_matches (lib : Lib) (r : Request) (db : DB)
    (h : ∀ k, ¬ (db.store.Live k ∧ hasPrefix k (valuesGet r.query "prefix") = true)) :
    (serve (handleListKeys lib) r db).1 = plainResponse (ascii "null\n") := by
  have hn := listedKeys_none_of_no_match r db h
  unfold listedKeys at hn
  simp only [serve, handleListKeys, hn, encodeKeys]
  rfl

/-- On the empty store `/keys` answers `null`. -/
theorem handleListKeys_writes_null_when_nothing_matches_witness :
    (serve (handleListKeys sampleLib) (Request.ofQuery []) (DB.ofStore Store.empty)).1 =
      plainResponse (ascii "null\n") :=
  handleListKeys_writes_null_when_nothing_matches sampleLib (Request.ofQuery [])
    (DB.ofStore Store.empty) (by
      intro k hk
      have := hk.1
      simp [Store.Live, Store.get, Store.latest, DB.ofStore, Store.empty] at this)

/-- C3: when the storage is unavailable, `db.View` returns an error to
`handleListKeys` and to the `/debug-count` handler, and both answer with status
200 (`null` and `Total keys: 0`): the error does not reach the caller. -/
theorem view_error_answered_with_200 (lib : Lib) (r : Request) (db : DB)
    (h : db.serving = false) :
    (db.view (listKeysLoop (valuesGet r.query "prefix")) none).1 = some EngineError.ioFailure ∧
    (serve (handleListKeys lib) r db).1 = plainResponse (ascii "null\n") ∧
    (db.view countLoop 0).1 = some EngineError.ioFailure ∧
    (serve handleDebugCount r db).1 = plainResponse (ascii "Total keys: 0") := by
  refine ⟨by simp [DB.view, h], ?_, by simp [DB.view, h], ?_⟩
  · simp only [serve, handleListKeys, DB.view, h, encodeKeys]
    rfl
  · simp only [serve, handleDebugCount, DB.view, h, Bool.false_eq_true, if_false]
    decide

/-- A store holding keys, with the storage unavailable: `/keys` answers 200
`null`. -/
theorem view_error_answered_with_200_witness :
    (serve (handleListKeys sampleLib) (Request.ofQuery [])
        { DB.ofStore sampleStore with serving := false }).1 = plainResponse (ascii "null\n") :=
  (view_error_answered_with_200 sampleLib (Request.ofQuery [])
    { DB.ofStore sampleStore with serving := false } rfl).2.1

/-- The other handlers answer a failed storage call with an error status. -/
theorem storage_error_surfaces_elsewhere (lib : Lib) (r : Request) (db : DB) :
    ((db.view (getKeyFn (valuesGet r.query "key")) []).1 ≠ none →
      (serve handleGetKey r db).1 = errorResponse "Key not found" 404) ∧
    (∀ key value, lib.decodePayload r.body = some (key, value) →
      (db.update [WriteOp.set key value]).1 ≠ none →
      (serve (handleSetKey lib) r db).1 = errorResponse "Failed to write key" 500) ∧
    ((db.update [WriteOp.delete (valuesGet r.query "key")]).1 ≠ none →
      (serve handleDeleteKey r db).1 = errorResponse "Failed to delete key" 500) ∧
    (∀ file, r.formFile = some file → (db.load file 10).1 ≠ none →
      (serve handleRestore r db).1 = errorResponse "Restore failed" 500) ∧
    (∀ w, (db.backup w 0).1 ≠ none → (serve handleBackup r db).1.status = 500) := by
  refine ⟨?_, ?_, ?_, ?_, ?_⟩
  · intro h
    simp only [serve, handleGetKey]
    cases hv : (db.view (getKeyFn (valuesGet r.query "key")) []).1 with
    | none => exact absurd hv h
    | some e => exact httpError_fresh _ _
  · intro key value hd h
    simp only [serve, handleSetKey, hd]
    cases hv : (db.update [WriteOp.set key value]).1 with
    | none => exact absurd hv h
    | some e => exact httpError_fresh _ _
  · intro h
    simp only [serve, handleDeleteKey]
    cases hv : (db.update [WriteOp.delete (valuesGet r.query "key")]).1 with
    | none => exact absurd hv h
    | some e => exact httpError_fresh _ _
  · intro file hf h
    simp only [serve, handleRestore, hf]
    cases hv : (db.load file 10).1 with
    | none => exact absurd hv h
    | some e => exact httpError_fresh _ _
  · intro w h
    have hs : db.serving = false := by
      by_contra hs
      simp [DB.backup, hs] at h
    simp only [serve, handleBackup, DB.backup, hs]
    rfl

/-- C2: `handleListKeys` and `handleGetKey` make exactly one storage call, a
`db.View`, and leave the store as it was; `handleSetKey` (when the body decodes)
and `handleDeleteKey` make exactly one storage call, a `db.Update` whose
transaction holds exactly one operation: the `Set`, respectively the `Delete`,
of the key named in the request. -/
theorem one_transaction_per_request (lib : Lib) (w : ResponseWriter) (r : Request) (db : DB) :
    ((handleListKeys lib w r db).2.calls = db.calls ++ [StorageCall.view] ∧
      (handleListKeys lib w r db).2.store = db.store) ∧
    ((handleGetKey w r db).2.calls = db.calls ++ [StorageCall.view] ∧
      (handleGetKey w r db).2.store = db.store) ∧
    (∀ key value, lib.decodePayload r.body = some (key, value) →
      (handleSetKey lib w r db).2.calls =
        db.calls ++ [StorageCall.update [WriteOp.set key value]]) ∧
    (handleDeleteKey w r db).2.calls =
      db.calls ++ [StorageCall.update [WriteOp.delete (valuesGet r.query "key")]] := by
  refine ⟨?_, ?_, ?_, ?_⟩
  · constructor <;> (simp only [handleListKeys, DB.view]; split <;> rfl)
  · constructor <;>
      (simp only [handleGetKey, DB.view]; split <;> (split <;> rfl))
  · intro key value hd
    simp only [handleSetKey, hd, DB.update]
    split <;> (split <;> (try split) <;> rfl)
  · simp only [handleDeleteKey, DB.update]
    split <;> (split <;> (try split) <;> rfl)

/-- A `/set` whose body decodes to key `k`, value `1` makes the single call
`db.Update` with the single operation `Set(k, 1)`. -/
theorem one_transaction_per_request_witness :
    (handleSetKey sampleLib ResponseWriter.fresh
        { header := [], query := [], body := ascii "k1", formFile := none }
        (DB.ofStore sampleStore)).2.calls =
      [StorageCall.update [WriteOp.set (ascii "k") (ascii "1")]] :=
  (one_transaction_per_request sampleLib ResponseWriter.fresh
    { header := [], query := [], body := ascii "k1", formFile := none }
    (DB.ofStore sampleStore)).2.2.1 (ascii "k") (ascii "1") rfl

/-! ## Reading a key -/

theorem handleGetKey_serving (r : Request) (db : DB) (hs : db.serving = true) :
    (serve handleGetKey r db).1 =
      match db.store.get (valuesGet r.query "key") db.store.version with
      | some v => foundResponse v
      | none => errorResponse "Key not found" 404 := by
  simp only [serve, handleGetKey, DB.view, hs, if_true, getKeyFn, Txn.get]
  cases hg : db.store.get (valuesGet r.query "key") db.store.version with
  | none => rfl
  | some v =>
    simp only [List.nil_append]
    rfl

/-- With the storage unavailable `db.View` fails and every key is answered 404. -/
theorem handleGetKey_not_serving (r : Request) (db : DB) (hs : db.serving = false) :
    (serve handleGetKey r db).1 = errorResponse "Key not found" 404 := by
  simp only [serve, handleGetKey, DB.view, hs]
  rfl

/-- C4: for every store state and every key `k`, with the read transaction
served, `handleGetKey` on `/get?key=k` answers 200 with
`Content-Type: application/json` and the stored value, byte for byte, as the body
when `k` has a value in the store, and answers 404 with the message
`Key not found` exactly when `k` has none (never stored, or deleted). -/
theorem handleGetKey_returns_stored_value (r : Request) (db : DB) (hs : db.serving = true) :
    (∀ v, db.store.get (valuesGet r.query "key") db.store.version = some v →
      (serve handleGetKey r db).1 = foundResponse v) ∧
    (db.store.get (valuesGet r.query "key") db.store.version = none →
      (serve handleGetKey r db).1 = errorResponse "Key not found" 404) ∧
    ((serve handleGetKey r db).1.status = 404 ↔
      db.store.get (valuesGet r.query "key") db.store.version = none) := by
  have h := handleGetKey_serving r db hs
  refine ⟨?_, ?_, ?_⟩
  · intro v hv; rw [h, hv]
  · intro hv; rw [h, hv]
  · rw [h]
    cases hg : db.store.get (valuesGet r.query "key") db.store.version with
    | none => simp [errorResponse]
    | some v => simp [foundResponse]

/-- In the sample store `b` holds `2` and the deleted `a1` is answered 404. -/
theorem handleGetKey_returns_stored_value_witness :
    (serve handleGetKey (Request.ofQuery [("key", ascii "b")]) (DB.ofStore sampleStore)).1 =
      foundResponse (ascii "2") ∧
    (serve handleGetKey (Request.ofQuery [("key", ascii "a1")]) (DB.ofStore sampleStore)).1 =
      errorResponse "Key not found" 404 :=
  ⟨(handleGetKey_returns_stored_value (Request.ofQuery [("key", ascii "b")])
      (DB.ofStore sampleStore) rfl).1 (ascii "2") (by decide),
   (handleGetKey_returns_stored_value (Request.ofQuery [("key", ascii "a1")])
      (DB.ofStore sampleStore) rfl).2.1 (by decide)⟩

/-! ## Failed writes -/

theorem update_store (db : DB) (batch : List WriteOp) :
    ((db.update batch).1 = none ∧ db.serving = true ∧ batch.all db.admits = true ∧
      (db.update batch).2.store = db.store.commit batch) ∨
    ((db.update batch).1 ≠ none ∧ (db.update batch).2.store = db.store) := by
  unfold DB.update
  by_cases hs : db.serving = true
  · by_cases ha : batch.all db.admits = true
    · left; simp [hs, ha]
    · right; simp [hs, ha]
  · right; simp [hs]

theorem handleSetKey_cases (lib : Lib) (r : Request) (db : DB) :
    (lib.decodePayload r.body = none ∧
      serve (handleSetKey lib) r db = (errorResponse "Invalid input" 400, db)) ∨
    (∃ key value, lib.decodePayload r.body = some (key, value) ∧
      (db.update [WriteOp.set key value]).1 ≠ none ∧
      (serve (handleSetKey lib) r db).1 = errorResponse "Failed to write key" 500 ∧
      (serve (handleSetKey lib) r db).2.store = db.store) ∨
    (∃ key value, lib.decodePayload r.body = some (key, value) ∧
      db.serving = true ∧
      (serve (handleSetKey lib) r db).1.status = 200 ∧
      (serve (handleSetKey lib) r db).2.store = db.store.commit [WriteOp.set key value]) := by
  cases hd : lib.decodePayload r.body with
  | none =>
    left
    refine ⟨rfl, ?_⟩
    simp only [serve, handleSetKey, hd]
    rfl
  | some kv =>
    obtain ⟨key, value⟩ := kv
    right
    rcases update_store db [WriteOp.set key value] with h | h
    · right
      refine ⟨key, value, rfl, h.2.1, ?_, ?_⟩
      · simp only [serve, handleSetKey, hd, h.1]; rfl
      · simp only [serve, handleSetKey, hd, h.1]; exact h.2.2.2
    · left
      refine ⟨key, value, rfl, h.1, ?_, ?_⟩
      · simp only [serve, handleSetKey, hd]
        cases hv : (db.update [WriteOp.set key value]).1 with
        | none => exact absurd hv h.1
        | some e => exact httpError_fresh _ _
      · simp only [serve, handleSetKey, hd]
        cases hv : (db.update [WriteOp.set key value]).1 with
        | none => exact absurd hv h.1
        | some e => exact h.2

theorem handleDeleteKey_cases (r : Request) (db : DB) :
    ((db.update [WriteOp.delete (valuesGet r.query "key")]).1 ≠ none ∧
      (serve handleDeleteKey r db).1 = errorResponse "Failed to delete key" 500 ∧
      (serve handleDeleteKey r db).2.store = db.store) ∨
    (db.serving = true ∧ (serve handleDeleteKey r db).1.status = 200 ∧
      (serve handleDeleteKey r db).2.store =
        db.store.commit [WriteOp.delete (valuesGet r.query "key")]) := by
  rcases update_store db [WriteOp.delete (valuesGet r.query "key")] with h | h
  · right
    refine ⟨h.2.1, ?_, ?_⟩
    · simp only [serve, handleDeleteKey, h.1]; rfl
    · simp only [serve, handleDeleteKey, h.1]; exact h.2.2.2
  · left
    refine ⟨h.1, ?_, ?_⟩
    · simp only [serve, handleDeleteKey]
      cases hv : (db.update [WriteOp.delete (valuesGet r.query "key")]).1 with
      | none => exact absurd hv h.1
      | some e => exact httpError_fresh _ _
    · simp only [serve, handleDeleteKey]
      cases hv : (db.update [WriteOp.delete (valuesGet r.query "key")]).1 with
      | none => exact absurd hv h.1
      | some e => exact h.2

/-- C8: a `/set` or `/delete` request that is not answered 200 leaves the store's
contents as they were, and its response is 400 `Invalid input` (body did not
decode), 500 `Failed to write key` or 500 `Failed to delete key`; a `/set` whose
body does not decode changes nothing of the process state, so it makes no storage
call. -/
theorem failed_write_leaves_store (lib : Lib) (r : Request) (db : DB) :
    ((serve (handleSetKey lib) r db).1.status ≠ 200 →
      (serve (handleSetKey lib) r db).2.store = db.store ∧
      ((serve (handleSetKey lib) r db).1 = errorResponse "Invalid input" 400 ∨
        (serve (handleSetKey lib) r db).1 = errorResponse "Failed to write key" 500)) ∧
    ((serve handleDeleteKey r db).1.status ≠ 200 →
      (serve handleDeleteKey r db).2.store = db.store ∧
      (serve handleDeleteKey r db).1 = errorResponse "Failed to delete key" 500) ∧
    (lib.decodePayload r.body = none →
      serve (handleSetKey lib) r db = (errorResponse "Invalid input" 400, db)) := by
  refine ⟨?_, ?_, ?_⟩
  · intro hne
    rcases handleSetKey_cases lib r db with h | ⟨_, _, _, _, h1, h2⟩ | ⟨_, _, _, _, h1, _⟩
    · rw [h.2]; exact ⟨rfl, Or.inl rfl⟩
    · exact ⟨h2, Or.inr h1⟩
    · exact absurd h1 hne
  · intro hne
    rcases handleDeleteKey_cases r db with h | h
    · exact ⟨h.2.2, h.2.1⟩
    · exact absurd h.2.1 hne
  · intro hd
    rcases handleSetKey_cases lib r db with h | ⟨_, _, h, _⟩ | ⟨_, _, h, _⟩
    · exact h.2
    · rw [hd] at h; cases h
    · rw [hd] at h; cases h

/-- With the storage unavailable a `/delete` is answered 500 and the sample store
is left as it was. -/
theorem failed_write_leaves_store_witness :
    (serve handleDeleteKey (Request.ofQuery [("key", ascii "b")])
        { DB.ofStore sampleStore with serving := false }).2.store = sampleStore :=
  ((failed_write_leaves_store sampleLib (Request.ofQuery [("key", ascii "b")])
    { DB.ofStore sampleStore with serving := false }).2.1 (by decide)).1

/-! ## Commits and the visible entry -/

theorem foldl_pickLatest_snap (k : Bytes) (a b : Nat) (hab : a ≤ b) :
    ∀ (l : List Entry) (init : Option Entry), (∀ e ∈ l, e.version ≤ a) →
      l.foldl (pickLatest k b) init = l.foldl (pickLatest k a) init
  | [], _, _ => rfl
  | x :: xs, init, h => by
    have hx : x.version ≤ a := h x (by simp)
    have hstep : pickLatest k b init x = pickLatest k a init x := by
      unfold pickLatest
      have h1 : (x.key = k ∧ x.version ≤ b) ↔ (x.key = k ∧ x.version ≤ a) := by
        constructor
        · exact fun h => ⟨h.1, hx⟩
        · exact fun h => ⟨h.1, le_trans hx hab⟩
      simp only [h1]
    rw [List.foldl_cons, List.foldl_cons, hstep]
    exact foldl_pickLatest_snap k a b hab xs _ (fun e he => h e (List.mem_cons_of_mem _ he))

theorem toEntry_key (v : Nat) (op : WriteOp) : (op.toEntry v).key = op.key := by
  cases op <;> rfl

theorem toEntry_version (v : Nat) (op : WriteOp) : (op.toEntry v).version = v := by
  cases op <;> rfl

theorem consistent_commit (s : Store) (batch : List WriteOp) (h : s.Consistent) :
    (s.commit batch).Consistent := by
  intro e he
  simp only [Store.commit, List.mem_append, List.mem_map] at he ⊢
  rcases he with he | ⟨op, _, rfl⟩
  · exact le_trans (h e he) (Nat.le_succ _)
  · rw [toEntry_version]

theorem pickLatest_newer (k : Bytes) (snap : Nat) (best : Option Entry) (e : Entry)
    (hk : e.key = k) (hv : e.version ≤ snap) (hb : ∀ b, best = some b → b.version ≤ e.version) :
    pickLatest k snap best e = some e := by
  unfold pickLatest
  rw [if_pos ⟨hk, hv⟩]
  cases best with
  | none => rfl
  | some b => simp only; rw [if_pos (hb b rfl)]

theorem pickLatest_other (k : Bytes) (snap : Nat) (best : Option Entry) (e : Entry)
    (hk : e.key ≠ k) : pickLatest k snap best e = best := by
  unfold pickLatest
  rw [if_neg (fun hc => hk hc.1)]

theorem latest_commit_single (s : Store) (op : WriteOp) (k : Bytes) (h : s.Consistent) :
    (s.commit [op]).latest k (s.commit [op]).version =
      if op.key = k then some (op.toEntry (s.version + 1)) else s.latest k s.version := by
  simp only [Store.latest, Store.commit, List.map_cons, List.map_nil, List.foldl_append,
    List.foldl_cons, List.foldl_nil]
  rw [foldl_pickLatest_snap k s.version (s.version + 1) (Nat.le_succ _) s.entries none h]
  by_cases hk : op.key = k
  · rw [if_pos hk]
    apply pickLatest_newer
    · rw [toEntry_key]; exact hk
    · rw [toEntry_version]
    · intro b hb
      rw [toEntry_version]
      rcases foldl_pickLatest_mem k s.version _ _ b hb with h1 | h1
      · cases h1
      · exact le_trans h1.2.2 (Nat.le_succ _)
  · rw [if_neg hk]
    apply pickLatest_other
    rw [toEntry_key]; exact hk

theorem get_commit_single (s : Store) (op : WriteOp) (k : Bytes) (h : s.Consistent) :
    (s.commit [op]).get k (s.commit [op]).version =
      if op.key = k then op.result else s.get k s.version := by
  unfold Store.get
  rw [latest_commit_single s op k h]
  by_cases hk : op.key = k
  · rw [if_pos hk, if_pos hk]
    cases op <;> rfl
  · rw [if_neg hk, if_neg hk]

/-! ## Sequences of writes -/

theorem handleArrival_ok (lib : Lib) (db : DB) (a : Arrival)
    (h : (handleArrival lib db a).1.status = 200) :
    ∃ op, requestedOp lib a = some op ∧ (handleArrival lib db a).2.store = db.store.commit [op] := by
  unfold handleArrival at h ⊢
  unfold requestedOp
  cases he : a.endpoint with
  | set =>
    rw [he] at h
    simp only at h ⊢
    rcases handleSetKey_cases lib a.request { db with serving := a.serving } with
      h1 | ⟨_, _, _, _, h1, _⟩ | ⟨key, value, hd, _, _, h2⟩
    · rw [h1.2] at h; simp [errorResponse] at h
    · rw [h1] at h; simp [errorResponse] at h
    · exact ⟨WriteOp.set key value, by rw [hd], h2⟩
  | delete =>
    rw [he] at h
    simp only at h ⊢
    rcases handleDeleteKey_cases a.request { db with serving := a.serving } with h1 | h1
    · rw [h1.2.1] at h; simp [errorResponse] at h
    · exact ⟨_, rfl, h1.2.2⟩

theorem runArrivals_get (lib : Lib) (k : Bytes) :
    ∀ (steps : List Arrival) (db0 : DB), db0.store.Consistent →
      (∀ resp ∈ (runArrivals lib db0 steps).1, resp.status = 200) →
      (runArrivals lib db0 steps).2.store.Consistent ∧
      (runArrivals lib db0 steps).2.store.get k (runArrivals lib db0 steps).2.store.version =
        match lastWrite lib k steps with
        | some op => op.result
        | none => db0.store.get k db0.store.version
  | [], db0, hc, _ => ⟨hc, rfl⟩
  | a :: rest, db0, hc, h200 => by
    simp only [runArrivals] at h200 ⊢
    obtain ⟨op, hop, hstore⟩ := handleArrival_ok lib db0 a (h200 _ (by simp))
    have hc1 : (handleArrival lib db0 a).2.store.Consistent := by
      rw [hstore]; exact consistent_commit _ _ hc
    have ih := runArrivals_get lib k rest (handleArrival lib db0 a).2 hc1
      (fun resp hr => h200 resp (List.mem_cons_of_mem _ hr))
    refine ⟨ih.1, ?_⟩
    rw [ih.2]
    simp only [lastWrite]
    cases hl : lastWrite lib k rest with
    | some op2 => rfl
    | none =>
      simp only [hop]
      rw [hstore, get_commit_single _ _ _ hc]
      by_cases hk : op.key = k
      · simp [hk]
      · simp [hk]

/-- C5: after any sequence of `/set` and `/delete` requests that were each
answered 200 (started on a consistent store), a served `/get?key=k` answers 200
with the raw `value` member of the most recent `/set` of `k` when no `/delete` of
`k` came after it, and answers 404 when the most recent operation on `k` was a
`/delete`; when no request of the sequence touched `k` it answers as before the
sequence, which is 404 on the empty store (`k` never set). -/
theorem read_observes_latest_write (lib : Lib) (db0 : DB) (steps : List Arrival) (r : Request)
    (hc : db0.store.Consistent)
    (h200 : ∀ resp ∈ (runArrivals lib db0 steps).1, resp.status = 200) :
    (∀ key v, lastWrite lib (valuesGet r.query "key") steps = some (WriteOp.set key v) →
      (serve handleGetKey r { (runArrivals lib db0 steps).2 with serving := true }).1 =
        foundResponse v) ∧
    (∀ key, lastWrite lib (valuesGet r.query "key") steps = some (WriteOp.delete key) →
      (serve handleGetKey r { (runArrivals lib db0 steps).2 with serving := true }).1 =
        errorResponse "Key not found" 404) ∧
    (lastWrite lib (valuesGet r.query "key") steps = none →
      (serve handleGetKey r { (runArrivals lib db0 steps).2 with serving := true }).1 =
        (serve handleGetKey r { db0 with serving := true }).1) ∧
    (lastWrite lib (valuesGet r.query "key") steps = none → db0.store = Store.empty →
      (serve handleGetKey r { (runArrivals lib db0 steps).2 with serving := true }).1 =
        errorResponse "Key not found" 404) := by
  have hg := (runArrivals_get lib (valuesGet r.query "key") steps db0 hc h200).2
  have hserve := handleGetKey_serving r { (runArrivals lib db0 steps).2 with serving := true } rfl
  simp only at hserve
  rw [hg] at hserve
  refine ⟨?_, ?_, ?_, ?_⟩
  · intro key v hl
    rw [hserve, hl]; rfl
  · intro key hl
    rw [hserve, hl]; rfl
  · intro hl
    rw [hserve, hl, handleGetKey_serving r { db0 with serving := true } rfl]
  · intro hl he
    rw [hserve, hl, he]
    rfl

/-! ## The backup stream: reading what was written -/

theorem getUvarint_putUvarintAux : ∀ (fuel n : Nat) (rest : Bytes), n ≤ fuel →
    getUvarint (putUvarintAux fuel n ++ rest) = some (n, rest)
  | 0, n, rest, h => by
    have hn : n = 0 := by omega
    subst hn
    simp [putUvarintAux, getUvarint]
  | fuel + 1, n, rest, h => by
    unfold putUvarintAux
    by_cases hlt : n < 128
    · rw [if_pos hlt]
      simp [getUvarint, hlt]
    · rw [if_neg hlt]
      have ih := getUvarint_putUvarintAux fuel (n / 128) rest (by omega)
      rw [List.cons_append, getUvarint, if_neg (by omega), ih]
      simp only [Option.some.injEq, Prod.mk.injEq, and_true]
      omega

theorem getUvarint_putUvarint (n : Nat) (rest : Bytes) :
    getUvarint (putUvarint n ++ rest) = some (n, rest) :=
  getUvarint_putUvarintAux n n rest le_rfl

theorem putUvarintAux_ne_nil : ∀ (fuel n : Nat), putUvarintAux fuel n ≠ []
  | 0, _ => by simp [putUvarintAux]
  | fuel + 1, n => by
    unfold putUvarintAux
    split <;> simp

theorem putRecord_ne_nil (e : Entry) : putRecord e ≠ [] := by
  unfold putRecord putUvarint
  intro h
  simp only [List.append_eq_nil, List.append_assoc] at h
  exact putUvarintAux_ne_nil _ _ h.1

theorem getRecord_putRecord (e : Entry) (rest : Bytes) :
    getRecord (putRecord e ++ rest) = some (e, rest) := by
  unfold getRecord putRecord
  simp only [List.append_assoc]
  rw [getUvarint_putUvarint]
  simp only
  rw [getUvarint_putUvarint]
  simp only
  rw [getUvarint_putUvarint]
  simp only [List.singleton_append, List.length_append]
  rw [if_neg (by omega)]
  obtain ⟨key, value, version, tombstone⟩ := e
  simp only [Option.some.injEq, Prod.mk.injEq, Entry.mk.injEq, true_and]
  refine ⟨⟨?_, ?_, ?_⟩, ?_⟩
  · simp
  · simp
  · cases tombstone <;> simp
  · rw [← List.append_assoc, List.drop_left']
    simp

theorem length_le_flatten_putRecord : ∀ es : List Entry,
    es.length ≤ ((es.map putRecord).flatten).length
  | [] => by simp
  | e :: es => by
    have ih := length_le_flatten_putRecord es
    have h1 : 0 < (putRecord e).length := List.length_pos.2 (putRecord_ne_nil e)
    simp only [List.map_cons, List.flatten_cons, List.length_append, List.length_cons]
    omega

theorem ingest_ingest (s : Store) (a b : List Entry) :
    (s.ingest a).ingest b = s.ingest (a ++ b) := by
  simp [Store.ingest, List.foldl_append]

theorem loadRecords_records (maxPending : Nat) :
    ∀ (es : List Entry) (fuel : Nat) (s : Store) (pending : List Entry), es.length < fuel →
      loadRecords fuel maxPending s pending ((es.map putRecord).flatten) =
        (none, s.ingest (pending ++ es))
  | _, 0, _, _, h => by omega
  | [], fuel + 1, s, pending, _ => by simp [loadRecords]
  | e :: es, fuel + 1, s, pending, h => by
    have hne : ((e :: es).map putRecord).flatten ≠ [] := by
      simp only [List.map_cons, List.flatten_cons, ne_eq, List.append_eq_nil, not_and]
      exact fun h => absurd h (putRecord_ne_nil e)
    unfold loadRecords
    rw [if_neg hne]
    simp only [List.map_cons, List.flatten_cons]
    rw [getRecord_putRecord]
    simp only
    have hlen : es.length < fuel := by simp at h; omega
    by_cases hm : maxPending ≤ (pending ++ [e]).length
    · rw [if_pos hm, loadRecords_records maxPending es fuel _ [] hlen, ingest_ingest]
      simp
    · rw [if_neg hm, loadRecords_records maxPending es fuel _ _ hlen]
      simp

/-- Restoring a stream made of a format tag and whole records succeeds and
ingests exactly the records, whatever the batch size. -/
theorem load_records (s : Store) (es : List Entry) (maxPending : Nat) :
    s.load (streamHeader ++ (es.map putRecord).flatten) maxPending = (none, s.ingest es) := by
  unfold Store.load
  rw [if_pos (hasPrefix_append _ _), List.drop_left']
  · rw [loadRecords_records maxPending es _ s []]
    · simp
    · have := length_le_flatten_putRecord es
      simp only [List.length_append]
      omega
  · rfl

theorem getUvarint_length : ∀ (input : Bytes) (n : Nat) (r : Bytes),
    getUvarint input = some (n, r) → r.length < input.length
  | [], _, _, h => by simp [getUvarint] at h
  | b :: rest, n, r, h => by
    unfold getUvarint at h
    by_cases hb : b < 128
    · rw [if_pos hb] at h
      simp only [Option.some.injEq, Prod.mk.injEq] at h
      rw [← h.2]
      simp
    · rw [if_neg hb] at h
      cases hg : getUvarint rest with
      | none => rw [hg] at h; cases h
      | some p =>
        obtain ⟨m, r2⟩ := p
        rw [hg] at h
        simp only [Option.some.injEq, Prod.mk.injEq] at h
        have := getUvarint_length rest m r2 hg
        rw [← h.2]
        simp only [List.length_cons]
        omega

theorem getRecord_length (input : Bytes) (e : Entry) (rest : Bytes)
    (h : getRecord input = some (e, rest)) : rest.length < input.length := by
  unfold getRecord at h
  cases h1 : getUvarint input with
  | none => rw [h1] at h; cases h
  | some p1 =>
    obtain ⟨klen, r1⟩ := p1
    rw [h1] at h
    simp only at h
    cases h2 : getUvarint r1 with
    | none => rw [h2] at h; cases h
    | some p2 =>
      obtain ⟨vlen, r2⟩ := p2
      rw [h2] at h
      simp only at h
      cases h3 : getUvarint r2 with
      | none => rw [h3] at h; cases h
      | some p3 =>
        obtain ⟨ver, r3⟩ := p3
        rw [h3] at h
        simp only at h
        have l1 := getUvarint_length _ _ _ h1
        have l2 := getUvarint_length _ _ _ h2
        have l3 := getUvarint_length _ _ _ h3
        cases r3 with
        | nil => cases h
        | cons flag r4 =>
          simp only at h
          by_cases hlen : r4.length < klen + vlen
          · rw [if_pos hlen] at h; cases h
          · rw [if_neg hlen] at h
            simp only [Option.some.injEq, Prod.mk.injEq] at h
            rw [← h.2]
            simp only [List.length_drop, List.length_cons] at l3 ⊢
            omega

/-- The record loop never stops for lack of fuel: any two fuels above the length
of the input give the same result. -/
theorem loadRecords_fuel (maxPending : Nat) :
    ∀ (fuel1 fuel2 : Nat) (s : Store) (pending : List Entry) (input : Bytes),
      input.length < fuel1 → input.length < fuel2 →
      loadRecords fuel1 maxPending s pending input = loadRecords fuel2 maxPending s pending input
  | 0, _, _, _, _, h, _ => by omega
  | _ + 1, 0, _, _, _, _, h => by omega
  | fuel1 + 1, fuel2 + 1, s, pending, input, h1, h2 => by
    unfold loadRecords
    by_cases hi : input = []
    · rw [if_pos hi, if_pos hi]
    · rw [if_neg hi, if_neg hi]
      cases hg : getRecord input with
      | none => rfl
      | some p =>
        obtain ⟨e, rest⟩ := p
        have hl := getRecord_length input e rest hg
        simp only
        by_cases hm : maxPending ≤ (pending ++ [e]).length
        · rw [if_pos hm, if_pos hm]
          exact loadRecords_fuel maxPending fuel1 fuel2 _ _ rest (by omega) (by omega)
        · rw [if_neg hm, if_neg hm]
          exact loadRecords_fuel maxPending fuel1 fuel2 _ _ rest (by omega) (by omega)

/-- The fuel `Store.load` gives the record loop is enough: more fuel changes
nothing. -/
theorem load_fuel_suffices (s : Store) (stream : Bytes) (maxPending extra : Nat)
    (h : hasPrefix stream streamHeader = true) :
    loadRecords (stream.length + 1 + extra) maxPending s [] (stream.drop streamHeader.length) =
      s.load stream maxPending := by
  unfold Store.load
  rw [if_pos h]
  apply loadRecords_fuel
  · simp only [List.length_drop]; omega
  · simp only [List.length_drop]; omega

/-! ## The visible entry under reordering and filtering -/

theorem pickLatest_swap_same (k : Bytes) (snap : Nat) (acc : Option Entry) (a b : Entry)
    (hak : a.key = k) (hbk : b.key = k) (hv : b.version < a.version) :
    pickLatest k snap (pickLatest k snap acc a) b =
      pickLatest k snap (pickLatest k snap acc b) a := by
  by_cases ha : a.version ≤ snap
  · have hb : b.version ≤ snap := by omega
    cases acc with
    | none =>
      simp only [pickLatest, hak, hbk, ha, hb, and_self, if_true]
      rw [if_neg (by omega), if_pos (by omega)]
    | some c =>
      simp only [pickLatest, hak, hbk, ha, hb, and_self, if_true]
      by_cases hca : c.version ≤ a.version
      · by_cases hcb : c.version ≤ b.version
        · simp only [hca, hcb, if_true]
          rw [if_neg (by omega), if_pos (by omega)]
        · simp only [hca, hcb, if_true, if_false]
          rw [if_neg (by omega)]
      · have hcb : ¬ c.version ≤ b.version := by omega
        simp only [hca, hcb, if_false]
  · by_cases hb : b.version ≤ snap
    · cases acc with
      | none => simp only [pickLatest, hak, hbk, ha, hb, and_self, and_false, if_true, if_false]
      | some c =>
        simp only [pickLatest, hak, hbk, ha, hb, and_self, and_false, if_true, if_false]
    · simp only [pickLatest, hak, hbk, ha, hb, and_false, if_false]
theorem pickLatest_swap (k : Bytes) (snap : Nat) (acc : Option Entry) (a b : Entry)
    (h : entryLe a b = false) :
    pickLatest k snap (pickLatest k snap acc a) b =
      pickLatest k snap (pickLatest k snap acc b) a := by
  by_cases hak : a.key = k
  · by_cases hbk : b.key = k
    · have hv : b.version < a.version := by
        unfold entryLe at h
        simp only [Bool.or_eq_false_iff, Bool.and_eq_false_iff, beq_eq_false_iff_ne,
          decide_eq_false_iff_not] at h
        rcases h.2 with h2 | h2
        · exact absurd (hak.trans hbk.symm) h2
        · omega
      exact pickLatest_swap_same k snap acc a b hak hbk hv
    · rw [pickLatest_other k snap _ b hbk, pickLatest_other k snap _ b hbk]
  · rw [pickLatest_other k snap _ a hak, pickLatest_other k snap _ a hak]

theorem foldl_pickLatest_orderedInsert (k : Bytes) (snap : Nat) (e : Entry) :
    ∀ (l : List Entry) (acc : Option Entry),
      (l.orderedInsert (fun a b => entryLe a b = true) e).foldl (pickLatest k snap) acc =
        (e :: l).foldl (pickLatest k snap) acc
  | [], _ => rfl
  | x :: xs, acc => by
    rw [List.orderedInsert]
    by_cases hle : entryLe e x = true
    · rw [if_pos hle]
    · rw [if_neg hle, List.foldl_cons, foldl_pickLatest_orderedInsert k snap e xs,
        List.foldl_cons, List.foldl_cons, List.foldl_cons,
        pickLatest_swap k snap acc e x (by simpa using hle)]

theorem foldl_pickLatest_insertionSort (k : Bytes) (snap : Nat) :
    ∀ (l : List Entry) (acc : Option Entry),
      (l.insertionSort (fun a b => entryLe a b = true)).foldl (pickLatest k snap) acc =
        l.foldl (pickLatest k snap) acc
  | [], _ => rfl
  | x :: xs, acc => by
    rw [List.insertionSort, foldl_pickLatest_orderedInsert, List.foldl_cons, List.foldl_cons,
      foldl_pickLatest_insertionSort k snap xs]

theorem foldl_pickLatest_filter (k : Bytes) (snap : Nat) (p : Entry → Bool) :
    ∀ (l : List Entry) (acc : Option Entry), (∀ e ∈ l, e.version ≤ snap → p e = true) →
      (l.filter p).foldl (pickLatest k snap) acc = l.foldl (pickLatest k snap) acc
  | [], _, _ => rfl
  | x :: xs, acc, h => by
    have ih := fun acc => foldl_pickLatest_filter k snap p xs acc
      (fun e he => h e (List.mem_cons_of_mem _ he))
    rw [List.filter_cons]
    by_cases hp : p x = true
    · rw [if_pos hp, List.foldl_cons, List.foldl_cons, ih]
    · rw [if_neg hp, List.foldl_cons, ih]
      have hx : ¬ x.version ≤ snap := fun hv => hp (h x (by simp) hv)
      have : pickLatest k snap acc x = acc := by
        unfold pickLatest
        rw [if_neg (fun hc => hx hc.2)]
      rw [this]

theorem foldl_max_le (bound : Nat) : ∀ (l : List Entry) (init : Nat), init ≤ bound →
    (∀ e ∈ l, e.version ≤ bound) → l.foldl (fun m e => max m e.version) init ≤ bound
  | [], _, h, _ => h
  | x :: xs, init, h, hl => by
    rw [List.foldl_cons]
    exact foldl_max_le bound xs _ (max_le h (hl x (by simp)))
      (fun e he => hl e (List.mem_cons_of_mem _ he))

theorem le_foldl_max : ∀ (l : List Entry) (init : Nat),
    init ≤ l.foldl (fun m e => max m e.version) init ∧
    ∀ e ∈ l, e.version ≤ l.foldl (fun m e => max m e.version) init
  | [], _ => ⟨le_rfl, by simp⟩
  | x :: xs, init => by
    rw [List.foldl_cons]
    have ih := le_foldl_max xs (max init x.version)
    refine ⟨le_trans (le_max_left _ _) ih.1, ?_⟩
    intro e he
    rcases List.mem_cons.1 he with rfl | he
    · exact le_trans (le_max_right _ _) ih.1
    · exact ih.2 e he

theorem mem_backupEntries (s : Store) (since : Nat) (e : Entry)
    (h : e ∈ s.backupEntries since) : e ∈ s.entries ∧ e.version ≤ s.version := by
  unfold Store.backupEntries at h
  rw [(List.perm_insertionSort _ _).mem_iff, List.mem_filter] at h
  simp only [decide_eq_true_eq] at h
  exact ⟨h.1, h.2.2⟩

/-- Restoring a full backup into the empty store gives every key the entry it
had at the time of the backup. -/
theorem latest_restored (s : Store) (k : Bytes) :
    (Store.empty.ingest (s.backupEntries 0)).latest k
        (Store.empty.ingest (s.backupEntries 0)).version =
      s.latest k s.version := by
  have hle : (Store.empty.ingest (s.backupEntries 0)).version ≤ s.version :=
    foldl_max_le s.version _ _ (Nat.zero_le _) (fun e he => (mem_backupEntries s 0 e he).2)
  have hbound : ∀ e ∈ s.backupEntries 0,
      e.version ≤ (Store.empty.ingest (s.backupEntries 0)).version :=
    (le_foldl_max (s.backupEntries 0) 0).2
  have h1 : (Store.empty.ingest (s.backupEntries 0)).entries = s.backupEntries 0 := by
    simp [Store.ingest, Store.empty]
  unfold Store.latest
  rw [h1, ← foldl_pickLatest_snap k _ s.version hle (s.backupEntries 0) none hbound]
  unfold Store.backupEntries
  rw [foldl_pickLatest_insertionSort, foldl_pickLatest_filter]
  intro e _ hv
  simpa using hv

theorem get_restored (s : Store) (k : Bytes) :
    (Store.empty.ingest (s.backupEntries 0)).get k
        (Store.empty.ingest (s.backupEntries 0)).version =
      s.get k s.version := by
  unfold Store.get
  rw [latest_restored s k]

/-! ## Iteration depends only on what `get` answers -/

theorem ascending_filter (l : List Bytes) (p : Bytes → Bool) (h : Ascending l) :
    Ascending (l.filter p) := List.Pairwise.filter _ h

theorem filterMap_eq_filter (g : Bytes → Option (Bytes × Bytes)) : ∀ l : List Bytes,
    l.filterMap g = (l.filter (fun k => (g k).isSome)).filterMap g
  | [] => rfl
  | x :: xs => by
    rw [List.filterMap_cons, List.filter_cons]
    cases hg : g x with
    | none => simp [filterMap_eq_filter g xs]
    | some v => simp [hg, filterMap_eq_filter g xs]

theorem iterate_congr (s1 s2 : Store) (pfx : Bytes) (a b : Nat)
    (h : ∀ k, s1.get k a = s2.get k b) : s1.iterate pfx a = s2.iterate pfx b := by
  unfold Store.iterate
  simp only [h]
  rw [filterMap_eq_filter _ (sortKeys (s1.entries.map (fun e => e.key))),
    filterMap_eq_filter _ (sortKeys (s2.entries.map (fun e => e.key)))]
  congr 1
  apply ascending_ext
  · exact ascending_filter _ _ (ascending_sortKeys _)
  · exact ascending_filter _ _ (ascending_sortKeys _)
  · intro k
    simp only [List.mem_filter, mem_sortKeys]
    constructor
    · intro hk
      refine ⟨?_, hk.2⟩
      have h2 : (s2.get k b).isSome = true := by
        have := hk.2
        by_cases hp : hasPrefix k pfx = true
        · cases hg : s2.get k b with
          | none => simp [hp, hg] at this
          | some v => rfl
        · simp [hp] at this
      exact live_mem_keys s2 k b h2
    · intro hk
      refine ⟨?_, hk.2⟩
      have h2 : (s1.get k a).isSome = true := by
        have := hk.2
        rw [h k]
        by_cases hp : hasPrefix k pfx = true
        · cases hg : s2.get k b with
          | none => simp [hp, hg] at this
          | some v => rfl
        · simp [hp] at this
      exact live_mem_keys s1 k a h2

/-! ## Backup and restore through the handlers -/

theorem handleBackup_serving (r : Request) (db : DB) (hs : db.serving = true) :
    (serve handleBackup r db).1 =
      { status := 200
        header := [("Content-Type", ascii "application/octet-stream"),
          ("Content-Disposition", ascii "attachment; filename=badger-backup.bak")]
        body := db.store.backup 0 } := by
  simp only [serve, handleBackup, DB.backup, hs, if_true]
  rfl

theorem handleRestore_serving (r : Request) (db : DB) (file : Bytes) (hs : db.serving = true)
    (hf : r.formFile = some file) (hl : (db.store.load file 10).1 = none) :
    (serve handleRestore r db).1 = plainResponse (ascii "Restore completed") ∧
    (serve handleRestore r db).2.store = (db.store.load file 10).2 := by
  simp only [serve, handleRestore, hf, DB.load, hs, if_true, hl]
  exact ⟨rfl, trivial⟩

/-- C7: for every store state, when the storage serves both requests, the target
store is empty and the file uploaded to `/restore` is the body `/backup` produced
for the store (a full backup, `since_version` 0, loaded in batches of 10), the
backup is answered 200, the restore is answered `Restore completed`, and the
restored store gives every key exactly the value it has in the original: the same
keys and the same latest non-deleted values, so that `get` and ordered iteration
answer alike. -/
theorem restore_of_backup_round_trip (r0 r1 : Request) (db target : DB)
    (hs : db.serving = true)
    (ht : target.serving = true) (hempty : target.store = Store.empty)
    (hfile : r1.formFile = some (serve handleBackup r0 db).1.body) :
    (serve handleBackup r0 db).1.status = 200 ∧
    (serve handleRestore r1 target).1 = plainResponse (ascii "Restore completed") ∧
    (∀ k, (serve handleRestore r1 target).2.store.get k
        (serve handleRestore r1 target).2.store.version = db.store.get k db.store.version) ∧
    (∀ k, (serve handleRestore r1 target).2.store.Live k ↔ db.store.Live k) ∧
    (∀ pfx, (serve handleRestore r1 target).2.store.iterate pfx
        (serve handleRestore r1 target).2.store.version =
      db.store.iterate pfx db.store.version) := by
  have hb := handleBackup_serving r0 db hs
  rw [hb] at hfile
  simp only at hfile
  have hload : target.store.load (db.store.backup 0) 10 =
      (none, Store.empty.ingest (db.store.backupEntries 0)) := by
    rw [hempty, Store.backup, load_records]
  have hr := handleRestore_serving r1 target _ ht hfile (by rw [hload])
  rw [hload] at hr
  simp only at hr
  have hget : ∀ k, (serve handleRestore r1 target).2.store.get k
      (serve handleRestore r1 target).2.store.version = db.store.get k db.store.version := by
    intro k
    rw [hr.2]
    exact get_restored db.store k
  refine ⟨by rw [hb], hr.1, hget, ?_, ?_⟩
  · intro k
    unfold Store.Live
    rw [hget k]
  · intro pfx
    exact iterate_congr _ _ pfx _ _ hget

/-- In the sample store the keys that start with `a` are listed in ascending
order. -/
theorem handleListKeys_lists_matching_keys_witness :
    Ascending (sliceElems (listedKeys (Request.ofQuery [("prefix", ascii "a")])
      (DB.ofStore sampleStore))) :=
  (handleListKeys_lists_matching_keys sampleLib (Request.ofQuery [("prefix", ascii "a")])
    (DB.ofStore sampleStore) rfl).2.1

/-- After `k` is set to `1`, deleted and set to `7`, `/get?key=k` answers `7`. -/
theorem read_observes_latest_write_witness :
    (serve handleGetKey (Request.ofQuery [("key", ascii "k")])
      { (runArrivals sampleLib (DB.ofStore Store.empty) sampleArrivals).2 with
        serving := true }).1 = foundResponse (ascii "7") :=
  (read_observes_latest_write sampleLib (DB.ofStore Store.empty) sampleArrivals
    (Request.ofQuery [("key", ascii "k")]) (by intro e he; cases he) (by decide)).1
    (ascii "k") (ascii "7") (by decide)

/-- Restoring the backup of `versionZeroStore` into an empty store gives back its
three keys `a2`, `b` and `z` with their values, the entry of version 0
included. -/
theorem restore_of_backup_round_trip_witness :
    (serve handleRestore sampleUpload (DB.ofStore Store.empty)).2.store.iterate []
        (serve handleRestore sampleUpload (DB.ofStore Store.empty)).2.store.version =
      [(ascii "a2", ascii "3"), (ascii "b", ascii "2"), (ascii "z", ascii "9")] :=
  ((restore_of_backup_round_trip (Request.ofQuery []) sampleUpload (DB.ofStore versionZeroStore)
    (DB.ofStore Store.empty) rfl rfl rfl rfl).2.2.2.2 []).trans (by decide)

/-- A header whose base64 text is followed by garbage still decodes to the
credentials and passes: the decoder's error is not looked at. -/
theorem withAuth_ignores_decode_error :
    (decodeString (ascii "YWRtaW46Ym90Zmx1ZW5jZQ==x")).2 = true ∧
    ∀ (h : HandlerFunc DB) (w : ResponseWriter) (db : DB),
      withAuth defaultConfig h w
          { header := [("Authorization", ascii "Basic YWRtaW46Ym90Zmx1ZW5jZQ==x")],
            query := [], body := [], formFile := none } db =
        h w { header := [("Authorization", ascii "Basic YWRtaW46Ym90Zmx1ZW5jZQ==x")],
              query := [], body := [], formFile := none } db := by
  refine ⟨by decide, ?_⟩
  intro h w db
  apply withAuth_eq_of_authorized
  exact ⟨ascii "YWRtaW46Ym90Zmx1ZW5jZQ==x", by decide, by decide, by decide⟩

/-! ## The store invariant -/

theorem consistent_ingest (s : Store) (es : List Entry) (h : s.Consistent) :
    (s.ingest es).Consistent := by
  intro e he
  have hb := le_foldl_max es s.version
  simp only [Store.ingest, List.mem_append] at he ⊢
  rcases he with he | he
  · exact le_trans (h e he) hb.1
  · exact hb.2 e he

theorem consistent_loadRecords (maxPending : Nat) :
    ∀ (fuel : Nat) (s : Store) (pending : List Entry) (input : Bytes), s.Consistent →
      (loadRecords fuel maxPending s pending input).2.Consistent
  | 0, _, _, _, h => h
  | fuel + 1, s, pending, input, h => by
    unfold loadRecords
    split
    · exact consistent_ingest s pending h
    · split
      · exact h
      · split
        · exact consistent_loadRecords maxPending fuel _ _ _ (consistent_ingest s _ h)
        · exact consistent_loadRecords maxPending fuel _ _ _ h

/-- Every handler keeps the store consistent: no entry carries a version beyond
the highest committed one. -/
theorem handlers_keep_store_consistent (lib : Lib) (w : ResponseWriter) (r : Request) (db : DB)
    (h : db.store.Consistent) :
    (handleSetKey lib w r db).2.store.Consistent ∧
    (handleDeleteKey w r db).2.store.Consistent ∧
    (handleRestore w r db).2.store.Consistent ∧
    (handleListKeys lib w r db).2.store.Consistent ∧
    (handleGetKey w r db).2.store.Consistent ∧
    (handleBackup w r db).2.store.Consistent := by
  have hupd : ∀ batch, (db.update batch).2.store.Consistent := by
    intro batch
    rcases update_store db batch with hu | hu
    · rw [hu.2.2.2]; exact consistent_commit _ _ h
    · rw [hu.2]; exact h
  refine ⟨?_, ?_, ?_, ?_, ?_, ?_⟩
  · simp only [handleSetKey]
    split
    · exact h
    · split <;> exact hupd _
  · simp only [handleDeleteKey]
    split <;> exact hupd _
  · simp only [handleRestore]
    split
    · exact h
    · have hl : ∀ file, (db.load file 10).2.store.Consistent := by
        intro file
        unfold DB.load
        split
        · simp only [Store.load]
          split
          · exact consistent_loadRecords _ _ _ _ _ h
          · exact h
        · exact h
      split <;> exact hl _
  · simp only [handleListKeys, DB.view]
    split <;> exact h
  · simp only [handleGetKey, DB.view]
    split <;> (split <;> exact h)
  · simp only [handleBackup, DB.backup]
    split <;> (split <;> exact h)

end BadgerAdmin
